import Mathlib

/-!
Verification development for the rubin_changelog core: the tag model
(`src/rubin_changelog/tag.py`), the package-diff computation and the merge
attribution engine (`src/rubin_changelog/changelog.py`).

Conventions of the shallow embedding:
* Timestamps are modelled as natural numbers (`Time`).  In the source,
  `merged_at` keys are ISO-8601 strings whose lexicographic order agrees with
  the chronological order produced by `dateutil.parser.parse`, so a single
  totally ordered carrier is faithful.
* Python `SortedDict` values are association lists iterated in key order;
  mutation is explicit state passing.
* Fallible code paths (`KeyError`, `AttributeError`, `TypeError`) are
  represented with `Option`.
* Characters are treated as ASCII (tag names and ticket titles in this
  system are ASCII); Python `str.upper` and the regex classes are modelled
  on ASCII code points.
-/

namespace RubinChangelog

/-- ASCII decimal digit test, the model of the regex class `\d`. -/
def isDigitChar (c : Char) : Bool :=
  decide (48 ≤ c.toNat) && decide (c.toNat ≤ 57)

/-- Value of a run of decimal digit characters, most significant first;
models Python `int` applied to a digit string. -/
def digitsVal (l : List Char) : Nat :=
  l.foldl (fun a c => a * 10 + (c.toNat - 48)) 0

/-- The separator class `[_|.]` (equal to `[.|_]`) of the tag grammars in
`tag.py`: underscore, pipe, or dot. -/
def isPySep (c : Char) : Bool :=
  c = '_' || c = '|' || c = '.'

/-- Model of Python `name.startswith(c)` for a single character. -/
def startsWithChar (s : String) (c : Char) : Bool :=
  match s.toList with
  | [] => false
  | c0 :: _ => c0 = c

/-- Model of Python `name.endswith("main")` in `Tag.__init__`. -/
def endsWithMain (s : String) : Bool :=
  match s.toList.reverse with
  | 'n' :: 'i' :: 'a' :: 'm' :: _ => true
  | _ => false

/-- Embeds `Tag._weekly` (tag.py lines 61-69): the anchored regex
`^w[.|_](\d{4})[_|.](\d{2})$`.  Returns `(year, week)` on a match. -/
def parseWeekly (name : String) : Option (Nat × Nat) :=
  match name.toList with
  | 'w' :: s1 :: d1 :: d2 :: d3 :: d4 :: s2 :: e1 :: e2 :: [] =>
    if isPySep s1 && isPySep s2 && isDigitChar d1 && isDigitChar d2 &&
        isDigitChar d3 && isDigitChar d4 && isDigitChar e1 && isDigitChar e2 then
      some (digitsVal [d1, d2, d3, d4], digitsVal [e1, e2])
    else none
  | _ => none

/-- One `[_|.]\d+` component: a separator followed by a maximal nonempty
digit run.  Returns the separator, the digit run, and the rest. -/
def parseSepDigits : List Char → Option (Char × List Char × List Char)
  | c :: rest =>
    if isPySep c then
      let ds := rest.takeWhile isDigitChar
      if ds = [] then none else some (c, ds, rest.dropWhile isDigitChar)
    else none
  | [] => none

/-- The `([_|.]rc(\d+))?$` suffix of the NUMBERED grammar: a separator,
the literal `rc`, a nonempty digit run, and the end of the string. -/
def parseRcEnd : List Char → Option Nat
  | s :: 'r' :: 'c' :: rest =>
    if isPySep s then
      let ds := rest.takeWhile isDigitChar
      if ds = [] then none
      else if rest.dropWhile isDigitChar = [] then some (digitsVal ds)
      else none
    else none
  | _ => none

/-- Python `int` applied to regex group 1 or 2 after `'.'` and `'_'` have
been stripped (tag.py lines 99-105): the group text is a separator
followed by digits, so the conversion fails (raising `ValueError`,
tag.py line 113) exactly when the separator was `'|'`. -/
def sepGroupVal (sep : Char) (ds : List Char) : Option Nat :=
  if sep = '|' then none else some (digitsVal ds)

/-- The optional leading `[v]?` of the NUMBERED grammar. -/
def stripV (l : List Char) : List Char :=
  match l with
  | c :: rest => if c = 'v' then rest else l
  | [] => l

/-- The patch group value: group 3 missing defaults to `'0'`
(tag.py lines 101-105). -/
def patchValOf (pp : Option (Char × List Char)) : Option Nat :=
  match pp with
  | none => some 0
  | some (sep2, patDs) => sepGroupVal sep2 patDs

/-- The rc group value: group 5 missing defaults to 99 (tag.py lines 106-107). -/
def rcValOf (rp : Option Nat) : Nat :=
  match rp with
  | none => 99
  | some r => r

/-- The tail of `Tag._regular` (tag.py lines 98-118): fill defaults
(`patch` 0, `rc` 99), run the `int` conversions (which fail on a `'|'`
separator in groups 1 or 2) and apply the major range check
`9 <= major <= 1000`. -/
def mkRegular (mds : List Char) (sep1 : Char) (minDs : List Char)
    (patchPart : Option (Char × List Char)) (rcPart : Option Nat) :
    Option (Nat × Nat × Nat × Nat) :=
  match sepGroupVal sep1 minDs with
  | none => none
  | some minor =>
    match patchValOf patchPart with
    | none => none
    | some patch =>
      if digitsVal mds < 9 || digitsVal mds > 1000 then none
      else some (digitsVal mds, minor, patch, rcValOf rcPart)

/-- Body of the NUMBERED grammar after the optional `v` has been stripped:
`(\d+)([_|.]\d+)([_|.]\d+)?([_|.]rc(\d+))?$` feeding `mkRegular`. -/
def parseRegularAux (l : List Char) : Option (Nat × Nat × Nat × Nat) :=
  if l.takeWhile isDigitChar = [] then none
  else
    match parseSepDigits (l.dropWhile isDigitChar) with
    | none => none
    | some (sep1, minDs, rest2) =>
      match rest2 with
      | [] => mkRegular (l.takeWhile isDigitChar) sep1 minDs none none
      | _ :: _ =>
        match parseSepDigits rest2 with
        | some (sep2, patDs, rest3) =>
          match rest3 with
          | [] => mkRegular (l.takeWhile isDigitChar) sep1 minDs (some (sep2, patDs)) none
          | _ :: _ =>
            match parseRcEnd rest3 with
            | some rc =>
              mkRegular (l.takeWhile isDigitChar) sep1 minDs (some (sep2, patDs)) (some rc)
            | none => none
        | none =>
          match parseRcEnd rest2 with
          | some rc => mkRegular (l.takeWhile isDigitChar) sep1 minDs none (some rc)
          | none => none

/-- Embeds `Tag._regular` (tag.py lines 93-118): the anchored regex
`^[v]?(\d+)([_|.]\d+)([_|.]\d+)?([_|.]rc(\d+))?$` followed by the default
filling, the `int` conversions and the major range check.
Returns `(major, minor, patch, rc)`. -/
def parseRegular (name : String) : Option (Nat × Nat × Nat × Nat) :=
  parseRegularAux (stripV name.toList)

/-- The `Tag` helper class of tag.py: name, validity flag, weekly and main
flags, and the integer sort key `_hash` (`-1` when unset). -/
structure Tag where
  name : String
  valid : Bool
  isWeeklyFlag : Bool
  isMainFlag : Bool
  hash : Int
deriving DecidableEq

/-- Embeds `Tag.__init__` (tag.py lines 34-56): trunk names ending in `main` get
the sentinel key 9999999999; names starting with `w` go through the weekly
grammar; everything else goes through the numbered grammar. -/
def Tag.ofName (name : String) : Tag :=
  if endsWithMain name then
    { name := name, valid := true, isWeeklyFlag := false, isMainFlag := true,
      hash := 9999999999 }
  else if startsWithChar name 'w' then
    match parseWeekly name with
    | some (y, wk) =>
      { name := name, valid := true, isWeeklyFlag := true, isMainFlag := false,
        hash := ((y * 100 + wk : Nat) : Int) }
    | none =>
      { name := name, valid := false, isWeeklyFlag := false, isMainFlag := false,
        hash := -1 }
  else
    match parseRegular name with
    | some (ma, mi, pa, rc) =>
      { name := name, valid := true, isWeeklyFlag := false, isMainFlag := false,
        hash := ((ma * 1000000 + mi * 10000 + pa * 100 + rc : Nat) : Int) }
    | none =>
      { name := name, valid := false, isWeeklyFlag := false, isMainFlag := false,
        hash := -1 }

/-- Embeds `Tag.is_valid` (tag.py lines 138-139). -/
def Tag.is_valid (t : Tag) : Bool := t.valid

/-- Embeds `Tag.is_weekly` (tag.py lines 71-80): true for weekly tags and main. -/
def Tag.is_weekly (t : Tag) : Bool := t.isMainFlag || t.isWeeklyFlag

/-- Embeds `Tag.is_regular` (tag.py lines 82-91): true for non-weekly tags and main. -/
def Tag.is_regular (t : Tag) : Bool := !t.isWeeklyFlag || t.isMainFlag

/-- Embeds `Tag.rel_name` (tag.py lines 120-136): `main` for trunk tags; otherwise
the raw name, `v`-prefixed when a non-weekly name lacks one, with every
`'.'` replaced by `'_'`. -/
def Tag.rel_name (t : Tag) : String :=
  if t.isMainFlag then "main"
  else
    let base := if !t.isWeeklyFlag && !(startsWithChar t.name 'v')
      then 'v' :: t.name.toList else t.name.toList
    ⟨base.map (fun c => if c = '.' then '_' else c)⟩

/-- The `ReleaseType` enum of tag.py. -/
inductive ReleaseType where
  | WEEKLY
  | REGULAR
deriving DecidableEq, BEq

/-- Embeds `matches_release` (tag.py lines 163-183). -/
def matches_release (tag : Tag) (release : ReleaseType) : Bool :=
  if tag.is_weekly && (release == ReleaseType.WEEKLY) then true
  else if tag.is_regular && (release == ReleaseType.REGULAR) then true
  else false

/-! ### Basic facts about the tag grammars -/

lemma digit_val_le {c : Char} (h : isDigitChar c = true) : c.toNat - 48 ≤ 9 := by
  simp only [isDigitChar, Bool.and_eq_true, decide_eq_true_eq] at h
  omega

lemma parseWeekly_bound {name : String} {y wk : Nat}
    (h : parseWeekly name = some (y, wk)) : y ≤ 9999 ∧ wk ≤ 99 := by
  unfold parseWeekly at h
  split at h
  case h_2 => exact absurd h (by simp)
  case h_1 s1 d1 d2 d3 d4 s2 e1 e2 heq =>
    split at h
    case isFalse => exact absurd h (by simp)
    case isTrue hcond =>
      simp only [Bool.and_eq_true] at hcond
      obtain ⟨⟨⟨⟨⟨⟨⟨-, -⟩, h1⟩, h2⟩, h3⟩, h4⟩, h5⟩, h6⟩ := hcond
      have b1 := digit_val_le h1
      have b2 := digit_val_le h2
      have b3 := digit_val_le h3
      have b4 := digit_val_le h4
      have b5 := digit_val_le h5
      have b6 := digit_val_le h6
      simp only [Option.some.injEq, Prod.mk.injEq] at h
      obtain ⟨hy, hw⟩ := h
      subst hy hw
      simp only [digitsVal, List.foldl]
      omega

lemma parseWeekly_starts {name : String} {p : Nat × Nat}
    (h : parseWeekly name = some p) : startsWithChar name 'w' = true := by
  unfold parseWeekly at h
  split at h
  case h_2 => exact absurd h (by simp)
  case h_1 s1 d1 d2 d3 d4 s2 e1 e2 heq =>
    unfold startsWithChar
    rw [heq]
    simp

lemma mkRegular_major {mds : List Char} {sep1 : Char} {minDs : List Char}
    {pp : Option (Char × List Char)} {rp : Option Nat} {ma mi pa rc : Nat}
    (h : mkRegular mds sep1 minDs pp rp = some (ma, mi, pa, rc)) : ma ≤ 1000 := by
  unfold mkRegular at h
  split at h
  · exact absurd h (by simp)
  · split at h
    · exact absurd h (by simp)
    · split at h
      · exact absurd h (by simp)
      · rename_i hrange
        simp only [Bool.or_eq_true, decide_eq_true_eq, not_or, Nat.not_lt] at hrange
        simp only [Option.some.injEq, Prod.mk.injEq] at h
        obtain ⟨hma, -, -, -⟩ := h
        omega

lemma parseRegular_to_mk {name : String} {q : Nat × Nat × Nat × Nat}
    (h : parseRegular name = some q) :
    ∃ mds sep1 minDs pp rp, mkRegular mds sep1 minDs pp rp = some q := by
  unfold parseRegular parseRegularAux at h
  split at h
  · exact absurd h (by simp)
  · split at h
    · exact absurd h (by simp)
    · split at h
      · exact ⟨_, _, _, _, _, h⟩
      · split at h
        · split at h
          · exact ⟨_, _, _, _, _, h⟩
          · split at h
            · exact ⟨_, _, _, _, _, h⟩
            · exact absurd h (by simp)
        · split at h
          · exact ⟨_, _, _, _, _, h⟩
          · exact absurd h (by simp)

lemma parseRegular_not_w {name : String} {q : Nat × Nat × Nat × Nat}
    (h : parseRegular name = some q) : startsWithChar name 'w' = false := by
  by_contra hw
  rw [Bool.not_eq_false] at hw
  unfold startsWithChar at hw
  revert hw
  split
  · intro hw; exact absurd hw (by simp)
  · rename_i c0 tl heq
    intro hw
    rw [decide_eq_true_eq] at hw
    subst hw
    unfold parseRegular at h
    rw [heq] at h
    have hstrip : stripV ('w' :: tl) = 'w' :: tl := by
      simp [stripV]
    rw [hstrip] at h
    have htake : List.takeWhile isDigitChar ('w' :: tl) = [] := by
      rw [List.takeWhile_cons]
      simp [show isDigitChar 'w' = false from by decide]
    unfold parseRegularAux at h
    rw [htake] at h
    simp at h

/-- Claim C2 (counterexample): the claim orders the tags as
`9.1.0 < 9.1.2 < 9.1.2-rc3 < 9.1.3`, but the parser gives `9.1.2` the sort
key 9010299 (missing rc defaults to 99) and `v9.1.2.rc3` the smaller key
9010203, so `9.1.2 < 9.1.2-rc3` is false on the code. -/
theorem C2_counterexample :
    (Tag.ofName "9.1.2").hash = 9010299 ∧
    (Tag.ofName "v9.1.2.rc3").hash = 9010203 ∧
    ¬ (Tag.ofName "9.1.2").hash < (Tag.ofName "v9.1.2.rc3").hash := by
  decide

/-- Claim C2 (amended): parsing the valid NUMBERED tag strings yields
strictly increasing sort keys in the order
`9.1.0 < 9.1.2-rc3 < 9.1.2 < 9.1.3` (a release ranks above its own
release candidates because a missing rc defaults to 99). -/
theorem C2_amended_order :
    ((Tag.ofName "9.1.0").valid = true ∧ (Tag.ofName "9.1.2").valid = true ∧
      (Tag.ofName "v9.1.2.rc3").valid = true ∧ (Tag.ofName "9.1.3").valid = true) ∧
    (Tag.ofName "9.1.0").hash < (Tag.ofName "v9.1.2.rc3").hash ∧
    (Tag.ofName "v9.1.2.rc3").hash < (Tag.ofName "9.1.2").hash ∧
    (Tag.ofName "9.1.2").hash < (Tag.ofName "9.1.3").hash := by
  decide

/-- Claim C5 (counterexample): `9.1000000` is a valid NUMBERED tag (the
grammar puts no bound on the digit count of the minor component) and its
sort key 10009000099 exceeds the TRUNK sentinel 9999999999, so the TRUNK
key does not exceed every constructible NUMBERED key. -/
theorem C5_counterexample :
    (Tag.ofName "9.1000000").valid = true ∧
    (Tag.ofName "9.1000000").isMainFlag = false ∧
    (Tag.ofName "9.1000000").isWeeklyFlag = false ∧
    ¬ (Tag.ofName "9.1000000").hash < (Tag.ofName "main").hash := by
  decide

/-- Claim C5 (amended): for every non-trunk tag string that parses as
SNAPSHOT, and for every non-trunk tag string that parses as NUMBERED whose
minor, patch and rc components are each at most 99, the TRUNK tag's sort
key is strictly greater than the tag's sort key.  (Without the component
bound the property fails, see the counterexample.) -/
theorem C5_amended_bounds (name : String) (hm : endsWithMain name = false) :
    (∀ y wk, parseWeekly name = some (y, wk) →
      (Tag.ofName name).hash < (Tag.ofName "main").hash) ∧
    (∀ ma mi pa rc, parseRegular name = some (ma, mi, pa, rc) →
      mi ≤ 99 → pa ≤ 99 → rc ≤ 99 →
      (Tag.ofName name).hash < (Tag.ofName "main").hash) := by
  have hmain : (Tag.ofName "main").hash = 9999999999 := by decide
  constructor
  · intro y wk h
    have hb := parseWeekly_bound h
    have hs := parseWeekly_starts h
    rw [hmain]
    simp only [Tag.ofName, hm, hs, h, Bool.false_eq_true, if_false, if_true]
    omega
  · intro ma mi pa rc h hmi hpa hrc
    obtain ⟨mds, sep1, minDs, pp, rp, hmk⟩ := parseRegular_to_mk h
    have hma := mkRegular_major hmk
    have hs := parseRegular_not_w h
    rw [hmain]
    simp only [Tag.ofName, hm, hs, h, Bool.false_eq_true, if_false]
    omega

/-- Claim C5 (witness): the amended theorem applied to the concrete tags
`v9.1.2.rc3` (NUMBERED, bounded components) and `w.2023.10` (SNAPSHOT). -/
theorem C5_witness :
    (Tag.ofName "v9.1.2.rc3").hash < (Tag.ofName "main").hash ∧
    (Tag.ofName "w.2023.10").hash < (Tag.ofName "main").hash :=
  ⟨(C5_amended_bounds "v9.1.2.rc3" (by decide)).2 9 1 2 3 (by decide)
      (by decide) (by decide) (by decide),
    (C5_amended_bounds "w.2023.10" (by decide)).1 2023 10 (by decide)⟩

lemma ofName_flags (name : String) :
    (Tag.ofName name).valid = false →
    (Tag.ofName name).isWeeklyFlag = false ∧ (Tag.ofName name).isMainFlag = false := by
  unfold Tag.ofName
  split
  · intro h; simp at h
  · split
    · split
      · intro h; simp at h
      · intro _; exact ⟨rfl, rfl⟩
    · split
      · intro h; simp at h
      · intro _; exact ⟨rfl, rfl⟩

/-- Claim C10: every tag string that parses as INVALID still reports
`is_regular() = True` and `matches_release(tag, REGULAR) = True`: invalid
tags are members of the regular cadence unless callers also filter with
`is_valid()`. -/
theorem C10_invalid_regular (name : String)
    (h : (Tag.ofName name).valid = false) :
    (Tag.ofName name).is_regular = true ∧
    matches_release (Tag.ofName name) ReleaseType.REGULAR = true := by
  obtain ⟨hw, hmn⟩ := ofName_flags name h
  unfold matches_release Tag.is_regular Tag.is_weekly
  rw [hw, hmn]
  decide

/-- Claim C10 (witness): the invalid tag string `foo`. -/
theorem C10_witness :
    (Tag.ofName "foo").valid = false ∧
    ((Tag.ofName "foo").is_regular = true ∧
      matches_release (Tag.ofName "foo") ReleaseType.REGULAR = true) :=
  ⟨by decide, C10_invalid_regular "foo" (by decide)⟩

/-! ### Ticket extraction (`ChangeLog._ticket_number`, changelog.py 197-216) -/

/-- The regex class `[\s*|-]` of `ChangeLog._ticket_number`: whitespace,
asterisk, pipe, or hyphen (exactly one character). -/
def sepClass (c : Char) : Bool :=
  c.isWhitespace || c = '*' || c = '|' || c = '-'

/-- Attempt to match `DM[\s*|-](\d+)` at the head of the character list,
returning the value of the maximal digit run. -/
def matchHere : List Char → Option Nat
  | a :: b :: c :: rest =>
    if a = 'D' && b = 'M' && sepClass c then
      if rest.takeWhile isDigitChar = [] then none
      else some (digitsVal (rest.takeWhile isDigitChar))
    else none
  | _ => none

/-- Model of `re.search` over the list: try each position from the left, first
successful match wins. -/
def findTicket : List Char → Option Nat
  | [] => none
  | c0 :: rest =>
    match matchHere (c0 :: rest) with
    | some v => some v
    | none => findTicket rest

/-- Python `title.upper()` on ASCII text: uppercase each character. -/
def pyUpper (s : String) : List Char :=
  s.toList.map Char.toUpper

/-- Embeds `ChangeLog._ticket_number` (changelog.py lines 197-216):
`re.search(r'DM[\s*|-](\d+)', title.upper())`, returning the first
match's digit run, or `None` when there is no match. -/
def ticket_number (title : String) : Option Nat :=
  findTicket (pyUpper title)

/-- A declarative reading of the code's pattern: somewhere in the list
there is `DM`, then exactly one separator from `[\s*|-]`, then a digit. -/
def HasTicketPattern (l : List Char) : Prop :=
  ∃ pre c d rest, l = pre ++ 'D' :: 'M' :: c :: d :: rest ∧
    sepClass c = true ∧ isDigitChar d = true

lemma takeWhile_ne_nil_head {p : Char → Bool} {l : List Char}
    (h : ¬ l.takeWhile p = []) : ∃ a t, l = a :: t ∧ p a = true := by
  cases l with
  | nil => simp [List.takeWhile] at h
  | cons a t =>
    rw [List.takeWhile_cons] at h
    by_cases hp : p a = true
    · exact ⟨a, t, rfl, hp⟩
    · rw [Bool.not_eq_true] at hp
      rw [hp] at h
      simp at h

lemma matchHere_some_of_pattern {c d : Char} (rest : List Char)
    (hc : sepClass c = true) (hd : isDigitChar d = true) :
    ∃ v, matchHere ('D' :: 'M' :: c :: d :: rest) = some v := by
  refine ⟨digitsVal (List.takeWhile isDigitChar (d :: rest)), ?_⟩
  simp [matchHere, hc, List.takeWhile_cons, hd]

lemma matchHere_none_no_digit {l : List Char} (h : matchHere l = none) :
    ¬ ∃ c d rest, l = 'D' :: 'M' :: c :: d :: rest ∧
      sepClass c = true ∧ isDigitChar d = true := by
  rintro ⟨c, d, rest, heq, hc, hd⟩
  subst heq
  obtain ⟨v, hv⟩ := matchHere_some_of_pattern rest hc hd
  rw [h] at hv
  exact absurd hv (by simp)

lemma matchHere_some_pattern {l : List Char} {v : Nat}
    (h : matchHere l = some v) :
    ∃ c d rest2, l = 'D' :: 'M' :: c :: d :: rest2 ∧
      sepClass c = true ∧ isDigitChar d = true := by
  unfold matchHere at h
  split at h
  · rename_i a b c rest
    split at h
    · rename_i hcond
      simp only [Bool.and_eq_true, decide_eq_true_eq] at hcond
      obtain ⟨⟨ha, hb⟩, hc⟩ := hcond
      subst ha hb
      split at h
      · exact absurd h (by simp)
      · rename_i hds
        obtain ⟨d, t, hrest, hd⟩ := takeWhile_ne_nil_head hds
        exact ⟨c, d, t, by rw [hrest], hc, hd⟩
    · exact absurd h (by simp)
  · exact absurd h (by simp)

lemma findTicket_none_iff (l : List Char) :
    findTicket l = none ↔ ¬ HasTicketPattern l := by
  induction l with
  | nil =>
    constructor
    · rintro - ⟨pre, c, d, rest, heq, -, -⟩
      exact absurd heq (by simp)
    · intro _; rfl
  | cons c0 rest ih =>
    have hstep : findTicket (c0 :: rest) =
        (match matchHere (c0 :: rest) with
          | some v => some v
          | none => findTicket rest) := rfl
    constructor
    · intro h
      rw [hstep] at h
      have hsplit : matchHere (c0 :: rest) = none ∧ findTicket rest = none := by
        revert h
        cases hm : matchHere (c0 :: rest) with
        | some v => intro h; exact absurd h (by simp)
        | none => intro h; exact ⟨rfl, h⟩
      obtain ⟨hmh, hrest⟩ := hsplit
      rintro ⟨pre, c, d, rest2, heq, hc, hd⟩
      cases pre with
      | nil =>
        simp only [List.nil_append] at heq
        exact matchHere_none_no_digit hmh ⟨c, d, rest2, heq, hc, hd⟩
      | cons p0 pre2 =>
        simp only [List.cons_append, List.cons.injEq] at heq
        exact (ih.mp hrest) ⟨pre2, c, d, rest2, heq.2, hc, hd⟩
    · intro h
      rw [hstep]
      cases hm : matchHere (c0 :: rest) with
      | some v =>
        exfalso
        obtain ⟨c, d, rest2, heq, hc, hd⟩ := matchHere_some_pattern hm
        refine h ⟨[], c, d, rest2, ?_, hc, hd⟩
        rw [List.nil_append]
        exact heq
      | none =>
        exact ih.mpr fun hp => h (by
          obtain ⟨pre, c, d, rest2, heq, hc, hd⟩ := hp
          exact ⟨c0 :: pre, c, d, rest2, by rw [heq]; rfl, hc, hd⟩)

/-- Spec-side definition for the refinement comparison, following the
claim's wording only: `DM` followed by an OPTIONAL whitespace-or-hyphen
character and then digits (regex `DM[\s-]?(\d+)`), matched at the head. -/
def specMatchHere : List Char → Option Nat
  | a :: b :: rest =>
    if a = 'D' && b = 'M' then
      match rest with
      | c :: r2 =>
        if (c.isWhitespace || c = '-') && !(r2.takeWhile isDigitChar = []) then
          some (digitsVal (r2.takeWhile isDigitChar))
        else if !(rest.takeWhile isDigitChar = []) then
          some (digitsVal (rest.takeWhile isDigitChar))
        else none
      | [] => none
    else none
  | _ => none

/-- Spec-side scan: leftmost match of the claim's optional-separator
pattern. -/
def specFindTicket : List Char → Option Nat
  | [] => none
  | c0 :: rest =>
    match specMatchHere (c0 :: rest) with
    | some v => some v
    | none => specFindTicket rest

/-- Spec-side ticket extraction, per the claim's words (`DM`, optional
whitespace or hyphen, digits). -/
def ticketNumberSpec (title : String) : Option Nat :=
  specFindTicket (pyUpper title)

/-- Claim C6 (counterexample): the code's separator is mandatory (the
class `[\s*|-]` must consume exactly one character), so `DM1234` yields no
ticket, while the claim's optional-separator reading yields 1234. -/
theorem C6_counterexample :
    ticket_number "DM1234" = none ∧ ticketNumberSpec "DM1234" = some 1234 := by
  constructor
  · decide
  · decide

/-- Claim C6 (amended): ticket extraction searches the upper-cased title
for `DM` followed by exactly one character from the class
`[\s*|-]` (whitespace, asterisk, pipe or hyphen) and then digits; the
first match's digit run is the ticket number and a title with no such
match yields a null id.  `DM-1234: fix thing` gives 1234, `no ticket
here` gives null, and `DM1234` (no separator) also gives null. -/
theorem C6_amended_pattern :
    (∀ title : String,
      ticket_number title = none ↔ ¬ HasTicketPattern (pyUpper title)) ∧
    ticket_number "DM-1234: fix thing" = some 1234 ∧
    ticket_number "no ticket here" = none ∧
    ticket_number "DM1234" = none := by
  refine ⟨fun title => findTicket_none_iff _, ?_, ?_, ?_⟩
  · decide
  · decide
  · decide

/-! ### Package diff (`ChangeLog.get_package_diff`, changelog.py 52-81) -/

/-- Model of `SortedList(set(xs) - set(ys))`: the distinct members of `xs` absent
from `ys`, in ascending lexicographic order. -/
def setDiffSorted (xs ys : List String) : List String :=
  List.insertionSort (· ≤ ·) ((xs.filter (fun x => decide (x ∉ ys))).dedup)

/-- One entry of the package diff: the `added` and `removed` lists for a
release. -/
structure DiffEntry where
  added : List String
  removed : List String
deriving DecidableEq

/-- The forward pass of `get_package_diff` (changelog.py lines 72-80):
carry the previous release's package list; every release after the first
produces an entry. -/
def packageDiffGo : Option (List String) → List (String × List String) →
    List (String × DiffEntry)
  | _, [] => []
  | none, r :: rest => packageDiffGo (some r.2) rest
  | some prev, r :: rest =>
    (r.1, ⟨setDiffSorted r.2 prev, setDiffSorted prev r.2⟩) ::
      packageDiffGo (some r.2) rest

/-- Embeds `ChangeLog.get_package_diff` over an ordered-by-tag sequence of
per-release package-name lists. -/
def get_package_diff (releases : List (String × List String)) :
    List (String × DiffEntry) :=
  packageDiffGo none releases

lemma packageDiffGo_zip (rels : List (String × List String))
    (pn : String) (prev : List String) :
    packageDiffGo (some prev) rels =
      (((pn, prev) :: rels).zip rels).map
        (fun pc => (pc.2.1, ⟨setDiffSorted pc.2.2 pc.1.2, setDiffSorted pc.1.2 pc.2.2⟩)) := by
  induction rels generalizing pn prev with
  | nil => rfl
  | cons r rest ih =>
    simp only [packageDiffGo, List.zip_cons_cons, List.map_cons]
    exact congrArg _ (ih r.1 r.2)

/-- Claim C8: the package-diff computation produces, for each release
after the first, an entry keyed by that release with
`added = current minus previous` and `removed = previous minus current`,
both rendered in ascending lexicographic order without duplicates, and no
entry for the first release; on the 3-release example it yields exactly
`diff(R2) = added ⟨c⟩ / removed ⟨b⟩` and `diff(R3) = added ⟨d⟩ / removed ⟨⟩`. -/
theorem C8_package_diff :
    (∀ rels : List (String × List String),
      get_package_diff rels =
        (rels.zip rels.tail).map
          (fun pc => (pc.2.1,
            ⟨setDiffSorted pc.2.2 pc.1.2, setDiffSorted pc.1.2 pc.2.2⟩))) ∧
    (∀ xs ys : List String,
      (setDiffSorted xs ys).Sorted (· ≤ ·) ∧ (setDiffSorted xs ys).Nodup ∧
      ∀ x, x ∈ setDiffSorted xs ys ↔ x ∈ xs ∧ x ∉ ys) ∧
    get_package_diff [("R1", ["a", "b"]), ("R2", ["a", "c"]), ("R3", ["a", "c", "d"])] =
      [("R2", ⟨["c"], ["b"]⟩), ("R3", ⟨["d"], []⟩)] := by
  refine ⟨?_, ?_, ?_⟩
  · intro rels
    cases rels with
    | nil => rfl
    | cons r0 rest =>
      show packageDiffGo (some r0.2) rest = _
      rw [packageDiffGo_zip rest r0.1 r0.2]
      rfl
  · intro xs ys
    refine ⟨?_, ?_, ?_⟩
    · exact List.sorted_insertionSort _ _
    · exact (List.perm_insertionSort _ _).nodup_iff.mpr (List.nodup_dedup _)
    · intro x
      unfold setDiffSorted
      rw [(List.perm_insertionSort _ _).mem_iff, List.mem_dedup, List.mem_filter]
      simp
  · decide

/-! ### Merge attribution engine (`ChangeLog.get_merged_tickets`,
changelog.py 218-304)

Timestamps (`merged_at`, `tag_date`, `last_commit`) are modelled as `Time`
(natural numbers); `dateutil.parser.parse` is the identity under this
model, and `SortedDict` iteration over `merged_at` keys is a list sorted
in ascending time order. -/

abbrev Time := Nat

/-- An event partition: the merge events of one branch, keyed by
`merged_at`, ascending. -/
abbrev Events := List (Time × String)

/-- Model of `repos['pulls'][pkg]`: branch name to events. -/
abbrev Pulls := List (String × Events)

/-- One record appended to `result[name]['tickets']`
(changelog.py lines 278-280 and 300-303). -/
structure Change where
  product : String
  title : String
  date : Time
  ticket : Option Nat
deriving DecidableEq

/-- Build the ticket record for one merge event. -/
def mkChange (pkg : String) (e : Time × String) : Change :=
  { product := pkg, title := e.2, date := e.1, ticket := ticket_number e.2 }

/-- One entry of the result: `result[name]` with its `date` (absent just
after creation) and `tickets` list. -/
structure Bucket where
  date : Option Time
  tickets : List Change
deriving DecidableEq

/-- The engine's result: a `SortedDict` keyed by canonical release name. -/
abbrev BucketMap := List (String × Bucket)

/-- Per-tag metadata.  `tag_date` and `last_commit` are produced by
`get_package_repos` (changelog.py lines 183-193).

`tag_branch` and `is_first` are Modelled from the spec: the methods
`Tag.tag_branch()` and `Tag.is_first_release_tag()` are called at
changelog.py lines 263 and 266 but are not defined in `src/` (tag.py has
no such methods); spec section 4.4(a) describes them as the release-branch
name derived from the tag and the first-tag-on-branch flag, so they are
modelled as per-tag input attributes, which covers every concrete
derivation. -/
structure TagInfo where
  tag_date : Time
  last_commit : Time
  tag_branch : String
  is_first : Bool
deriving DecidableEq

instance : DecidableEq Events := inferInstance

instance : DecidableEq Pulls := inferInstance

instance : DecidableEq BucketMap := inferInstance

instance : DecidableEq (List (String × Pulls)) := inferInstance

/-- Lexicographic comparison of character lists (Python string `<`). -/
def charListLt : List Char → List Char → Bool
  | [], [] => false
  | [], _ :: _ => true
  | _ :: _, [] => false
  | a :: as, b :: bs => if a < b then true else if b < a then false else charListLt as bs

/-- Python string comparison used by `SortedDict` on result keys. -/
def strLtB (a b : String) : Bool := charListLt a.toList b.toList

/-- Model of `name in result`. -/
def containsKey : BucketMap → String → Bool
  | [], _ => false
  | p :: rest, k => if p.1 = k then true else containsKey rest k

/-- Model of the `result[name]` lookup. -/
def getBucket : BucketMap → String → Option Bucket
  | [], _ => none
  | p :: rest, k => if p.1 = k then some p.2 else getBucket rest k

/-- Model of `result[name]['tickets']`, empty when the bucket is absent. -/
def bucketTickets (r : BucketMap) (k : String) : List Change :=
  match getBucket r k with
  | some b => b.tickets
  | none => []

/-- Model of `result[name] = bucket`: sorted insertion or replacement, mirroring
`SortedDict.__setitem__`. -/
def setBucket : BucketMap → String → Bucket → BucketMap
  | [], k, b => [(k, b)]
  | p :: rest, k, b =>
    if k = p.1 then (k, b) :: rest
    else if strLtB k p.1 then (k, b) :: p :: rest
    else p :: setBucket rest k b

/-- In-place update of an existing bucket. -/
def modifyBucket : BucketMap → String → (Bucket → Bucket) → BucketMap
  | [], _, _ => []
  | p :: rest, k, f => (if p.1 = k then (p.1, f p.2) else p) :: modifyBucket rest k f

/-- Model of the `pulls[branch]` lookup. -/
def plookup : Pulls → String → Option Events
  | [], _ => none
  | q :: rest, b => if q.1 = b then some q.2 else plookup rest b

/-- Replace the events of a branch (the effect of the `del` statements on
one partition). -/
def pset : Pulls → String → Events → Pulls
  | [], _, _ => []
  | q :: rest, b, e => (if q.1 = b then (q.1, e) else q) :: pset rest b e

/-- The package diff as used by the engine, keyed by tag sort key (Tag
`__eq__`/`__hash__` both delegate to `_hash`, so `SortedDict` lookup is
lookup by sort key). -/
abbrev PackageDiff := List (Int × DiffEntry)

/-- Model of `rtag in package_diff` plus `package_diff[rtag]` lookup. -/
def pdLookup : PackageDiff → Int → Option DiffEntry
  | [], _ => none
  | q :: rest, h => if q.1 = h then some q.2 else pdLookup rest h

/-- The guard of changelog.py line 277:
`rtag in package_diff and pkg in package_diff[rtag]["added"]`. -/
def suppressed (pd : PackageDiff) (tag : Tag) (pkg : String) : Bool :=
  match pdLookup pd tag.hash with
  | some entry => decide (pkg ∈ entry.added)
  | none => false

/-- The inner event loop (changelog.py lines 270-282): walk the snapshot
of the current branch partition in ascending order; while
`pull_date <= parse(tag_date)` delete the event from `pulls` and (unless
suppressed) append a ticket record; `break` at the first later event.
Returns the remaining partition and the appended records. -/
def consume (pkg : String) (tagDate : Time) (sup : Bool) :
    Events → Events × List Change
  | [] => ([], [])
  | e :: rest =>
    if e.1 ≤ tagDate then
      let r := consume pkg tagDate sup rest
      (r.1, if sup then r.2 else mkChange pkg e :: r.2)
    else (e :: rest, [])

/-- State shared across packages: the result map, the running maximum
commit timestamp `last_tag_date`, and `last_tag`. -/
structure GState where
  result : BucketMap
  lastTagDate : Option Time
  lastTag : Option Tag
deriving DecidableEq

/-- Per-package state: the package's (mutated) pull partitions and
`last_branch`. -/
structure PState where
  pulls : Pulls
  lastBranch : String
deriving DecidableEq

/-- Model of the `if last_tag_date is None or commit_date > last_tag_date` update
(changelog.py lines 261-262). -/
def maxCommit (d : Option Time) (c : Time) : Time :=
  match d with
  | none => c
  | some d0 => if c > d0 then c else d0

/-- One iteration of the tag loop (changelog.py lines 251-284). -/
def processTag (branchesAll : List String) (packageDiff : PackageDiff)
    (pkg : String) (st : GState × PState) (tag : Tag) (info : TagInfo) :
    GState × PState :=
  let g := st.1
  let p := st.2
  let name := tag.rel_name
  let r1 := if containsKey g.result name then g.result
            else setBucket g.result name { date := none, tickets := [] }
  let lastTagDate := some (maxCommit g.lastTagDate info.last_commit)
  let r2 := modifyBucket r1 name (fun b => { b with date := some info.tag_date })
  let sup := suppressed packageDiff tag pkg
  let pr : Pulls × BucketMap :=
    match plookup p.pulls p.lastBranch with
    | none => (p.pulls, r2)
    | some evs =>
      let c := consume pkg info.tag_date sup evs
      (pset p.pulls p.lastBranch c.1,
       modifyBucket r2 name (fun b => { b with tickets := b.tickets ++ c.2 }))
  let lastBranch := if info.is_first && decide (info.tag_branch ∈ branchesAll)
    then info.tag_branch else p.lastBranch
  ({ result := pr.2, lastTagDate := lastTagDate, lastTag := some tag },
   { pulls := pr.1, lastBranch := lastBranch })

/-- The tag loop over one package, starting from `last_branch = 'main'`. -/
def tagsFold (branchesAll : List String) (packageDiff : PackageDiff)
    (pkg : String) (g : GState) (pulls : Pulls) (tags : List (Tag × TagInfo)) :
    GState × PState :=
  tags.foldl (fun st ti => processTag branchesAll packageDiff pkg st ti.1 ti.2)
    (g, { pulls := pulls, lastBranch := "main" })

/-- The trunk-tail loop (changelog.py lines 290-303): for every remaining
`main` event, create the `~main` bucket (dated at generation time `now`)
if absent, then append the event's record when its timestamp exceeds the
running maximum commit timestamp.  Nothing is deleted here. -/
def trunkLoop (now : Time) (pkg : String) (cutoff : Time) :
    Events → BucketMap → BucketMap
  | [], r => r
  | e :: rest, r =>
    let r1 := if containsKey r "~main" then r
              else setBucket r "~main" { date := some now, tickets := [] }
    let r2 := if cutoff < e.1 then
        modifyBucket r1 "~main"
          (fun b => { b with tickets := b.tickets ++ [mkChange pkg e] })
      else r1
    trunkLoop now pkg cutoff rest r2

/-- One package body (changelog.py lines 246-303): tag loop, then the
trunk-tail section, which is skipped when `last_tag.is_regular()`.
`none` models the `AttributeError` on `last_tag = None` and the
`TypeError` of comparing a timestamp against `last_tag_date = None`. -/
def processPackage (now : Time) (branchesAll : List String)
    (packageDiff : PackageDiff) (g : GState) (pkg : String)
    (pkgPulls : Pulls) (tags : List (Tag × TagInfo)) :
    Option (GState × Pulls) :=
  match (tagsFold branchesAll packageDiff pkg g pkgPulls tags).1.lastTag with
  | none => none
  | some lt =>
    if lt.is_regular then
      some ((tagsFold branchesAll packageDiff pkg g pkgPulls tags).1,
        (tagsFold branchesAll packageDiff pkg g pkgPulls tags).2.pulls)
    else
      match plookup (tagsFold branchesAll packageDiff pkg g pkgPulls tags).2.pulls "main" with
      | none =>
        some ((tagsFold branchesAll packageDiff pkg g pkgPulls tags).1,
          (tagsFold branchesAll packageDiff pkg g pkgPulls tags).2.pulls)
      | some evs =>
        match evs with
        | [] =>
          some ((tagsFold branchesAll packageDiff pkg g pkgPulls tags).1,
            (tagsFold branchesAll packageDiff pkg g pkgPulls tags).2.pulls)
        | _ :: _ =>
          match (tagsFold branchesAll packageDiff pkg g pkgPulls tags).1.lastTagDate with
          | none => none
          | some d =>
            some ({ (tagsFold branchesAll packageDiff pkg g pkgPulls tags).1 with
                result := trunkLoop now pkg d evs
                  (tagsFold branchesAll packageDiff pkg g pkgPulls tags).1.result },
              (tagsFold branchesAll packageDiff pkg g pkgPulls tags).2.pulls)

/-- The input of `get_merged_tickets`: `repos['pulls']`, `repos['tags']`
(tags in ascending sort-key order per package, packages in name order) and
`repos['branches']`. -/
structure Repos where
  pulls : List (String × Pulls)
  tags : List (String × List (Tag × TagInfo))
  branches : List (String × List String)
deriving DecidableEq

/-- The branch list built at changelog.py lines 237-242: all branches of
all packages, first-seen order, no duplicates. -/
def collectBranches (bs : List (String × List String)) : List String :=
  bs.foldl (fun acc p =>
    p.2.foldl (fun acc2 b => if b ∈ acc2 then acc2 else acc2 ++ [b]) acc) []

/-- Model of the `pull_list[pkg]` lookup (raises `KeyError`, hence `Option`). -/
def pmLookup : List (String × Pulls) → String → Option Pulls
  | [], _ => none
  | q :: rest, pkg => if q.1 = pkg then some q.2 else pmLookup rest pkg

/-- Write back the mutated partitions of a package. -/
def pmSet : List (String × Pulls) → String → Pulls → List (String × Pulls)
  | [], _, _ => []
  | q :: rest, pkg, v => (if q.1 = pkg then (q.1, v) else q) :: pmSet rest pkg v

/-- The package loop (changelog.py lines 246-303). -/
def gmtGo (now : Time) (branchesAll : List String) (packageDiff : PackageDiff) :
    List (String × List (Tag × TagInfo)) → List (String × Pulls) → GState →
    Option (BucketMap × List (String × Pulls))
  | [], pullsMap, g => some (g.result, pullsMap)
  | pt :: rest, pullsMap, g =>
    match pmLookup pullsMap pt.1 with
    | none => none
    | some pkgPulls =>
      match processPackage now branchesAll packageDiff g pt.1 pkgPulls pt.2 with
      | none => none
      | some (g1, pulls1) =>
        gmtGo now branchesAll packageDiff rest (pmSet pullsMap pt.1 pulls1) g1

/-- Embeds `ChangeLog.get_merged_tickets` (changelog.py lines 218-304).  Returns
the result map together with the final state of the caller-supplied
`repos['pulls']` mapping (the method mutates it in place); `now` is the
generation timestamp `datetime.datetime.now()`. -/
def get_merged_tickets (now : Time) (repos : Repos)
    (packageDiff : PackageDiff) :
    Option (BucketMap × List (String × Pulls)) :=
  gmtGo now (collectBranches repos.branches) packageDiff repos.tags repos.pulls
    { result := [], lastTagDate := none, lastTag := none }

/-- Concrete input for the C1 counterexample: an annotated tag whose
tagger date (200) is later than its target commit date (100), and one
trunk merge event at time 150, strictly between the two. -/
def c1Repos : Repos where
  pulls := [("p", [("main", [(150, "DM-7 fix")])])]
  tags := [("p", [(Tag.ofName "9.1", ⟨200, 100, "", false⟩)])]
  branches := []

/-- Concrete input for the C4 counterexample: a package whose only (and
hence most recent) tag is the NUMBERED tag `9.1` cut at time 100, with a
trunk merge event left over at time 300. -/
def c4Repos : Repos where
  pulls := [("p", [("main", [(50, "DM-1 a"), (300, "DM-3 b")])])]
  tags := [("p", [(Tag.ofName "9.1", ⟨100, 100, "", false⟩)])]
  branches := []

/-- Concrete input for the C7 counterexample: a package whose most recent
tag is the weekly tag `w.2023.10` cut at time 100, with a trunk merge
event left over at time 300, which lands in the trunk-tail bucket. -/
def c7Repos : Repos where
  pulls := [("p", [("main", [(50, "DM-1 a"), (300, "DM-3 b")])])]
  tags := [("p", [(Tag.ofName "w.2023.10", ⟨100, 100, "", false⟩)])]
  branches := []

/-! ### Basic lemmas about the engine's containers -/

lemma consume_fst (pkg : String) (d : Time) (sup : Bool) (evs : Events) :
    (consume pkg d sup evs).1 = evs.dropWhile (fun e => decide (e.1 ≤ d)) := by
  induction evs with
  | nil => rfl
  | cons e rest ih =>
    by_cases he : e.1 ≤ d
    · simp [consume, he, List.dropWhile_cons, ih]
    · simp [consume, he, List.dropWhile_cons]

lemma consume_snd_true (pkg : String) (d : Time) (evs : Events) :
    (consume pkg d true evs).2 = [] := by
  induction evs with
  | nil => rfl
  | cons e rest ih =>
    by_cases he : e.1 ≤ d <;> simp [consume, he, ih]

lemma consume_snd_false (pkg : String) (d : Time) (evs : Events) :
    (consume pkg d false evs).2 =
      (evs.takeWhile (fun e => decide (e.1 ≤ d))).map (mkChange pkg) := by
  induction evs with
  | nil => rfl
  | cons e rest ih =>
    by_cases he : e.1 ≤ d <;> simp [consume, he, List.takeWhile_cons, ih]

lemma plookup_pset_self {p : Pulls} {b : String} {evs : Events}
    (h : plookup p b = some evs) (e : Events) :
    plookup (pset p b e) b = some e := by
  induction p with
  | nil => simp [plookup] at h
  | cons q rest ih =>
    by_cases hq : q.1 = b
    · simp [pset, plookup, hq]
    · simp only [plookup, hq, if_false] at h
      simp [pset, plookup, hq, ih h]

lemma plookup_pset_ne {b' b : String} (hne : b' ≠ b) (p : Pulls) (e : Events) :
    plookup (pset p b e) b' = plookup p b' := by
  induction p with
  | nil => rfl
  | cons q rest ih =>
    by_cases hq : q.1 = b
    · have hq' : ¬ q.1 = b' := by rw [hq]; exact fun hh => hne hh.symm
      have hb : ¬ b = b' := fun hh => hne hh.symm
      simp [pset, plookup, hq, hq', hb, ih]
    · simp [pset, plookup, hq, ih]

lemma containsKey_false_getBucket {r : BucketMap} {k : String}
    (h : containsKey r k = false) : getBucket r k = none := by
  induction r with
  | nil => rfl
  | cons p rest ih =>
    by_cases hp : p.1 = k
    · simp [containsKey, hp] at h
    · simp only [containsKey, hp, if_false] at h
      simp [getBucket, hp, ih h]

lemma containsKey_true_getBucket {r : BucketMap} {k : String}
    (h : containsKey r k = true) : ∃ b, getBucket r k = some b := by
  induction r with
  | nil => simp [containsKey] at h
  | cons p rest ih =>
    by_cases hp : p.1 = k
    · exact ⟨p.2, by simp [getBucket, hp]⟩
    · simp only [containsKey, hp, if_false] at h
      obtain ⟨b, hb⟩ := ih h
      exact ⟨b, by simp [getBucket, hp, hb]⟩

lemma containsKey_setBucket_self (r : BucketMap) (k : String) (b : Bucket) :
    containsKey (setBucket r k b) k = true := by
  induction r with
  | nil => simp [setBucket, containsKey]
  | cons p rest ih =>
    by_cases h1 : k = p.1
    · simp [setBucket, h1, containsKey]
    · by_cases h2 : strLtB k p.1
      · simp [setBucket, h1, h2, containsKey]
      · have h1' : ¬ p.1 = k := fun hh => h1 hh.symm
        simp [setBucket, h1, h2, containsKey, h1', ih]

lemma containsKey_modifyBucket (r : BucketMap) (k k' : String) (f : Bucket → Bucket) :
    containsKey (modifyBucket r k f) k' = containsKey r k' := by
  induction r with
  | nil => rfl
  | cons p rest ih =>
    by_cases hp : p.1 = k <;> simp [modifyBucket, containsKey, hp, ih]

lemma getBucket_setBucket (r : BucketMap) (k k' : String) (b : Bucket) :
    getBucket (setBucket r k b) k' = if k' = k then some b else getBucket r k' := by
  induction r with
  | nil =>
    by_cases h : k' = k
    · subst h; simp [setBucket, getBucket]
    · have h2 : ¬ k = k' := fun hh => h hh.symm
      simp [setBucket, getBucket, h, h2]
  | cons p rest ih =>
    simp only [setBucket]
    by_cases h1 : k = p.1
    · rw [if_pos h1]
      by_cases h2 : k' = k
      · subst h2; simp [getBucket]
      · have h3 : ¬ k = k' := fun hh => h2 hh.symm
        have h4 : ¬ p.1 = k' := by rw [← h1]; exact h3
        simp [getBucket, h2, h3, h4]
    · rw [if_neg h1]
      by_cases h2 : strLtB k p.1
      · rw [if_pos h2]
        by_cases h3 : k' = k
        · subst h3; simp [getBucket]
        · have h4 : ¬ k = k' := fun hh => h3 hh.symm
          simp [getBucket, h3, h4]
      · rw [if_neg h2]
        by_cases h3 : p.1 = k'
        · have h4 : ¬ k' = k := by rw [← h3]; exact fun hh => h1 hh.symm
          simp [getBucket, h3, h4]
        · simp [getBucket, h3, ih]

lemma getBucket_modifyBucket (r : BucketMap) (k k' : String) (f : Bucket → Bucket) :
    getBucket (modifyBucket r k f) k' =
      if k' = k then (getBucket r k').map f else getBucket r k' := by
  induction r with
  | nil => by_cases h : k' = k <;> simp [modifyBucket, getBucket, h]
  | cons p rest ih =>
    simp only [modifyBucket]
    by_cases h1 : p.1 = k
    · rw [if_pos h1]
      by_cases h2 : p.1 = k'
      · have h3 : k' = k := by rw [← h2]; exact h1
        simp [getBucket, h2, h3]
      · have h3 : ¬ k' = k := by
          intro hh
          exact h2 (by rw [hh, ← h1])
        simp [getBucket, h2, h3, ih]
    · rw [if_neg h1]
      by_cases h2 : p.1 = k'
      · have h3 : ¬ k' = k := fun hh => h1 (by rw [h2, hh])
        simp [getBucket, h2, h3]
      · simp [getBucket, h2, ih]

lemma bucketTickets_modify_date (r : BucketMap) (k' k : String) (d : Option Time) :
    bucketTickets (modifyBucket r k (fun b => { b with date := d })) k' =
      bucketTickets r k' := by
  unfold bucketTickets
  rw [getBucket_modifyBucket]
  by_cases h : k' = k
  · rw [if_pos h]; cases getBucket r k' <;> simp
  · rw [if_neg h]

lemma bucketTickets_append (r : BucketMap) (k : String) (cs : List Change)
    (hc : containsKey r k = true) :
    bucketTickets (modifyBucket r k (fun b => { b with tickets := b.tickets ++ cs })) k =
      bucketTickets r k ++ cs := by
  unfold bucketTickets
  rw [getBucket_modifyBucket, if_pos rfl]
  obtain ⟨b, hb⟩ := containsKey_true_getBucket hc
  rw [hb]
  simp

lemma bucketTickets_append_ne (r : BucketMap) (k k' : String) (cs : List Change)
    (h : k' ≠ k) :
    bucketTickets (modifyBucket r k (fun b => { b with tickets := b.tickets ++ cs })) k' =
      bucketTickets r k' := by
  unfold bucketTickets
  rw [getBucket_modifyBucket, if_neg h]

lemma bucketTickets_create (r : BucketMap) (k k' : String) (d : Option Time) :
    bucketTickets (if containsKey r k then r else setBucket r k ⟨d, []⟩) k' =
      bucketTickets r k' := by
  by_cases h : containsKey r k = true
  · rw [if_pos h]
  · rw [Bool.not_eq_true] at h
    rw [if_neg (by rw [h]; exact fun hh => nomatch hh)]
    unfold bucketTickets
    rw [getBucket_setBucket]
    by_cases h2 : k' = k
    · subst h2
      rw [if_pos rfl, containsKey_false_getBucket h]
    · rw [if_neg h2]

lemma containsKey_create_self (r : BucketMap) (k : String) (d : Option Time) :
    containsKey (if containsKey r k then r else setBucket r k ⟨d, []⟩) k = true := by
  by_cases h : containsKey r k = true
  · rw [if_pos h]; exact h
  · rw [Bool.not_eq_true] at h
    rw [if_neg (by rw [h]; exact fun hh => nomatch hh)]
    exact containsKey_setBucket_self r k ⟨d, []⟩

lemma mem_dropWhile_gt {evs : Events} {d : Time}
    (hs : List.Pairwise (fun a b => a.1 < b.1) evs) {x : Time × String}
    (hx : x ∈ evs.dropWhile (fun e => decide (e.1 ≤ d))) : d < x.1 := by
  induction evs with
  | nil => simp at hx
  | cons e rest ih =>
    rw [List.dropWhile_cons] at hx
    by_cases he : e.1 ≤ d
    · rw [decide_eq_true he, if_pos rfl] at hx
      exact ih (List.Pairwise.of_cons hs) hx
    · rw [decide_eq_false he] at hx
      simp only [Bool.false_eq_true, if_false] at hx
      rcases List.mem_cons.mp hx with hx1 | hx2
      · subst hx1
        exact not_le.mp he
      · exact lt_trans (not_le.mp he) ((List.pairwise_cons.mp hs).1 x hx2)

/-! ### Claims about the merge attribution engine -/

/-- Claim C1 (counterexample): in `c1Repos` the tag's commit timestamp
(`last_commit`) is 100 and its tagger date (`tag_date`) is 200; the merge
event at time 150 exceeds the commit timestamp, yet the engine consumes it
and attributes it to the tag's bucket `v9_1`, because the loop at
changelog.py line 274 compares against `tag_date`, not `last_commit`. -/
theorem C1_counterexample :
    (100 : Time) < 150 ∧
    get_merged_tickets 0 c1Repos [] =
      some ([("v9_1", ⟨some 200, [⟨"p", "DM-7 fix", 150, some 7⟩]⟩)],
        [("p", [("main", [])])]) :=
  ⟨by decide, by decide⟩

/-- Claim C1 (amended): at every tag, merge events of the current branch
partition are consumed in ascending order exactly while
`event.timestamp <= tag_date` (the tag's date: the tagger's date for an
annotated tag), and, when the package is not in the tag's `added` set, are
appended in order to the tag's bucket; the first event with timestamp
greater than `tag_date` stops consumption and the partition keeps exactly
the events from that one on. -/
theorem C1_amended_consumption (branchesAll : List String) (pd : PackageDiff)
    (pkg : String) (g : GState) (p : PState) (tag : Tag) (info : TagInfo)
    (evs : Events)
    (hev : plookup p.pulls p.lastBranch = some evs)
    (hsup : suppressed pd tag pkg = false) :
    bucketTickets (processTag branchesAll pd pkg (g, p) tag info).1.result tag.rel_name =
      bucketTickets g.result tag.rel_name ++
        (evs.takeWhile (fun e => decide (e.1 ≤ info.tag_date))).map (mkChange pkg) ∧
    plookup (processTag branchesAll pd pkg (g, p) tag info).2.pulls p.lastBranch =
      some (evs.dropWhile (fun e => decide (e.1 ≤ info.tag_date))) := by
  constructor
  · simp only [processTag, hev]
    rw [bucketTickets_append _ _ _
      (by rw [containsKey_modifyBucket]; exact containsKey_create_self _ _ _)]
    rw [bucketTickets_modify_date, bucketTickets_create, hsup, consume_snd_false]
  · simp only [processTag, hev]
    exact (plookup_pset_self hev _).trans (congrArg some (consume_fst _ _ _ _))

/-- Claim C1 (witness): the amended statement at the `c1Repos` data. -/
theorem C1_witness :
    bucketTickets (processTag [] [] "p"
      (⟨[], none, none⟩, ⟨[("main", [(150, "DM-7 fix")])], "main"⟩)
      (Tag.ofName "9.1") ⟨200, 100, "", false⟩).1.result (Tag.ofName "9.1").rel_name =
      bucketTickets ([] : BucketMap) (Tag.ofName "9.1").rel_name ++
        (([(150, "DM-7 fix")] : Events).takeWhile
          (fun e => decide (e.1 ≤ 200))).map (mkChange "p") ∧
    plookup (processTag [] [] "p"
      (⟨[], none, none⟩, ⟨[("main", [(150, "DM-7 fix")])], "main"⟩)
      (Tag.ofName "9.1") ⟨200, 100, "", false⟩).2.pulls "main" =
      some (([(150, "DM-7 fix")] : Events).dropWhile (fun e => decide (e.1 ≤ 200))) :=
  C1_amended_consumption [] [] "p" ⟨[], none, none⟩
    ⟨[("main", [(150, "DM-7 fix")])], "main"⟩ (Tag.ofName "9.1")
    ⟨200, 100, "", false⟩ [(150, "DM-7 fix")] (by decide) (by decide)

/-- Claim C3: when the package appears in the tag's `added` set of the
package diff, processing that tag appends nothing to any bucket, yet it
still consumes the events at or before the tag's cut: the branch partition
is left with exactly the suffix from the first later event on, and every
event at or before the cut is gone from it. -/
theorem C3_added_suppression (branchesAll : List String) (pd : PackageDiff)
    (pkg : String) (g : GState) (p : PState) (tag : Tag) (info : TagInfo)
    (evs : Events) (entry : DiffEntry)
    (hpd : pdLookup pd tag.hash = some entry)
    (hadded : pkg ∈ entry.added)
    (hev : plookup p.pulls p.lastBranch = some evs)
    (hsorted : List.Pairwise (fun a b => a.1 < b.1) evs) :
    (∀ k, bucketTickets (processTag branchesAll pd pkg (g, p) tag info).1.result k =
      bucketTickets g.result k) ∧
    plookup (processTag branchesAll pd pkg (g, p) tag info).2.pulls p.lastBranch =
      some (evs.dropWhile (fun e => decide (e.1 ≤ info.tag_date))) ∧
    (∀ e ∈ evs, e.1 ≤ info.tag_date →
      e ∉ evs.dropWhile (fun e2 => decide (e2.1 ≤ info.tag_date))) := by
  have hsup : suppressed pd tag pkg = true := by
    unfold suppressed
    rw [hpd]
    exact decide_eq_true hadded
  refine ⟨?_, ?_, ?_⟩
  · intro k
    simp only [processTag, hev]
    rw [hsup, consume_snd_true]
    by_cases hk : k = tag.rel_name
    · subst hk
      rw [bucketTickets_append _ _ _
        (by rw [containsKey_modifyBucket]; exact containsKey_create_self _ _ _)]
      rw [bucketTickets_modify_date, bucketTickets_create, List.append_nil]
    · rw [bucketTickets_append_ne _ _ _ _ hk, bucketTickets_modify_date,
        bucketTickets_create]
  · simp only [processTag, hev]
    exact (plookup_pset_self hev _).trans (congrArg some (consume_fst _ _ _ _))
  · intro e hmem hle hin
    exact absurd hle (not_le.mpr (mem_dropWhile_gt hsorted hin))

/-- Claim C3 (witness): a package `q` listed in the diff's `added` set for
tag `9.1`: the event at time 50 is consumed but nothing is attributed. -/
theorem C3_witness :
    (∀ k, bucketTickets (processTag [] [((Tag.ofName "9.1").hash, ⟨["q"], []⟩)] "q"
      (⟨[], none, none⟩, ⟨[("main", [(50, "DM-1 a"), (300, "DM-3 b")])], "main"⟩)
      (Tag.ofName "9.1") ⟨100, 100, "", false⟩).1.result k =
      bucketTickets ([] : BucketMap) k) ∧
    plookup (processTag [] [((Tag.ofName "9.1").hash, ⟨["q"], []⟩)] "q"
      (⟨[], none, none⟩, ⟨[("main", [(50, "DM-1 a"), (300, "DM-3 b")])], "main"⟩)
      (Tag.ofName "9.1") ⟨100, 100, "", false⟩).2.pulls "main" =
      some (([(50, "DM-1 a"), (300, "DM-3 b")] : Events).dropWhile
        (fun e => decide (e.1 ≤ 100))) ∧
    (∀ e ∈ ([(50, "DM-1 a"), (300, "DM-3 b")] : Events), e.1 ≤ 100 →
      e ∉ ([(50, "DM-1 a"), (300, "DM-3 b")] : Events).dropWhile
        (fun e2 => decide (e2.1 ≤ 100))) :=
  C3_added_suppression [] [((Tag.ofName "9.1").hash, ⟨["q"], []⟩)] "q"
    ⟨[], none, none⟩ ⟨[("main", [(50, "DM-1 a"), (300, "DM-3 b")])], "main"⟩
    (Tag.ofName "9.1") ⟨100, 100, "", false⟩ [(50, "DM-1 a"), (300, "DM-3 b")]
    ⟨["q"], []⟩ (by decide) (by decide) (by decide) (by decide)

lemma parseWeekly_toList {name : String} {p : Nat × Nat}
    (h : parseWeekly name = some p) : ∃ t, name.toList = 'w' :: t := by
  unfold parseWeekly at h
  split at h
  case h_2 => exact absurd h (by simp)
  case h_1 s1 d1 d2 d3 d4 s2 e1 e2 heq => exact ⟨_, heq⟩

lemma startsWithChar_toList {s : String} {c : Char}
    (h : startsWithChar s c = true) : ∃ t, s.toList = c :: t := by
  unfold startsWithChar at h
  split at h
  · exact absurd h (by simp)
  · rename_i c0 t heq
    rw [decide_eq_true_eq] at h
    subst h
    exact ⟨t, heq⟩

lemma toList_mk (l : List Char) : (⟨l⟩ : String).toList = l := rfl

/-- A non-main, non-weekly tag's canonical name starts with `v`. -/
lemma relName_head_nonweekly (tg : Tag) (hm : tg.isMainFlag = false)
    (hw : tg.isWeeklyFlag = false) :
    ∃ t, tg.rel_name.toList = 'v' :: t := by
  unfold Tag.rel_name
  rw [hm, hw]
  simp only [Bool.false_eq_true, if_false, Bool.not_false, Bool.true_and]
  by_cases hv : startsWithChar tg.name 'v' = true
  · obtain ⟨t, ht⟩ := startsWithChar_toList hv
    rw [hv]
    simp only [Bool.not_true, Bool.false_eq_true, if_false]
    refine ⟨t.map (fun c => if c = '.' then '_' else c), ?_⟩
    rw [toList_mk, ht, List.map_cons]
    rfl
  · rw [Bool.not_eq_true] at hv
    rw [hv]
    simp only [Bool.not_false, if_true]
    refine ⟨tg.name.toList.map (fun c => if c = '.' then '_' else c), ?_⟩
    rw [toList_mk, List.map_cons]
    rfl

/-- A non-main weekly tag's canonical name starts like its raw name. -/
lemma relName_head_weekly (tg : Tag) (hm : tg.isMainFlag = false)
    (hw : tg.isWeeklyFlag = true) {t : List Char}
    (hn : tg.name.toList = 'w' :: t) :
    ∃ t2, tg.rel_name.toList = 'w' :: t2 := by
  unfold Tag.rel_name
  rw [hm, hw]
  simp only [Bool.false_eq_true, if_false, Bool.not_true, Bool.false_and]
  refine ⟨t.map (fun c => if c = '.' then '_' else c), ?_⟩
  rw [toList_mk, hn, List.map_cons]
  rfl

/-- The first character of any canonical release name is `m`, `v` or `w`;
in particular no canonical name starts with `~`. -/
lemma relName_head (name : String) :
    ∃ c t, (Tag.ofName name).rel_name.toList = c :: t ∧
      (c = 'm' ∨ c = 'v' ∨ c = 'w') := by
  unfold Tag.ofName
  split
  · exact ⟨'m', ['a', 'i', 'n'], rfl, Or.inl rfl⟩
  · split
    · split
      · rename_i y wk heq
        obtain ⟨t, ht⟩ := parseWeekly_toList heq
        obtain ⟨t2, ht2⟩ := relName_head_weekly
          { name := name, valid := true, isWeeklyFlag := true, isMainFlag := false,
            hash := ((y * 100 + wk : Nat) : Int) } rfl rfl ht
        exact ⟨'w', t2, ht2, Or.inr (Or.inr rfl)⟩
      · obtain ⟨t2, ht2⟩ := relName_head_nonweekly
          { name := name, valid := false, isWeeklyFlag := false, isMainFlag := false,
            hash := -1 } rfl rfl
        exact ⟨'v', t2, ht2, Or.inr (Or.inl rfl)⟩
    · split
      · rename_i ma mi pa rc heq
        obtain ⟨t2, ht2⟩ := relName_head_nonweekly
          { name := name, valid := true, isWeeklyFlag := false, isMainFlag := false,
            hash := ((ma * 1000000 + mi * 10000 + pa * 100 + rc : Nat) : Int) } rfl rfl
        exact ⟨'v', t2, ht2, Or.inr (Or.inl rfl)⟩
      · obtain ⟨t2, ht2⟩ := relName_head_nonweekly
          { name := name, valid := false, isWeeklyFlag := false, isMainFlag := false,
            hash := -1 } rfl rfl
        exact ⟨'v', t2, ht2, Or.inr (Or.inl rfl)⟩

lemma charListLt_head {a b : Char} (h : a < b) (t1 t2 : List Char) :
    charListLt (a :: t1) (b :: t2) = true := by
  unfold charListLt
  rw [if_pos h]

/-- Every canonical release name sorts strictly before the synthetic
trunk-tail key `~main`. -/
lemma relName_lt_tilde (name : String) :
    strLtB (Tag.ofName name).rel_name "~main" = true := by
  obtain ⟨c, t, hct, hc⟩ := relName_head name
  unfold strLtB
  rw [hct, show ("~main".toList) = '~' :: ['m', 'a', 'i', 'n'] from rfl]
  rcases hc with h | h | h <;> subst h <;> exact charListLt_head (by decide) _ _

/-- The trunk-tail loop appends exactly the events later than the cutoff,
in order, to the `~main` bucket. -/
lemma trunkLoop_tickets (now : Time) (pkg : String) (cutoff : Time)
    (evs : Events) (r : BucketMap) :
    bucketTickets (trunkLoop now pkg cutoff evs r) "~main" =
      bucketTickets r "~main" ++
        (evs.filter (fun e => decide (cutoff < e.1))).map (mkChange pkg) := by
  induction evs generalizing r with
  | nil => simp [trunkLoop]
  | cons e rest ih =>
    rw [show trunkLoop now pkg cutoff (e :: rest) r =
      trunkLoop now pkg cutoff rest
        (if cutoff < e.1 then
          modifyBucket
            (if containsKey r "~main" then r
             else setBucket r "~main" ⟨some now, []⟩) "~main"
            (fun b => { b with tickets := b.tickets ++ [mkChange pkg e] })
         else
          (if containsKey r "~main" then r
           else setBucket r "~main" ⟨some now, []⟩)) from rfl]
    rw [ih, List.filter_cons]
    by_cases he : cutoff < e.1
    · rw [if_pos he, decide_eq_true he]
      simp only [if_true, List.map_cons]
      rw [bucketTickets_append _ _ _ (containsKey_create_self _ _ _),
        bucketTickets_create]
      rw [List.append_assoc]
      rfl
    · rw [if_neg he, decide_eq_false he]
      simp only [Bool.false_eq_true, if_false]
      rw [bucketTickets_create]

/-- Claim C4 (counterexample): in `c4Repos` the package's most recently
processed tag is the NUMBERED tag `9.1` and a trunk event at time 300
(greater than the maximum commit timestamp 100) remains unconsumed, yet
the engine produces no `~main` bucket at all: the trunk tail runs only
when the last tag is NOT of the regular cadence
(`if last_tag.is_regular(): continue`, changelog.py line 287). -/
theorem C4_counterexample :
    (Tag.ofName "9.1").is_regular = true ∧ (100 : Time) < 300 ∧
    get_merged_tickets 0 c4Repos [] =
      some ([("v9_1", ⟨some 100, [⟨"p", "DM-1 a", 50, some 1⟩]⟩)],
        [("p", [("main", [(300, "DM-3 b")])])]) ∧
    (get_merged_tickets 0 c4Repos []).map (fun r => containsKey r.1 "~main") =
      some false :=
  ⟨by decide, by decide, by decide, by decide⟩

/-- Claim C4 (amended): after all of a package's tags are processed, the
trunk-tail section runs only if the package's most recently processed tag
is NOT of the regular cadence (i.e. it is a SNAPSHOT tag; for a NUMBERED
or trunk last tag the section is skipped and the result and pulls are
those of the tag loop alone); when it runs, every remaining trunk event
with timestamp strictly greater than the running maximum commit timestamp
is appended, in order, to the synthetic `~main` bucket, whose key sorts
after every canonical release name. -/
theorem C4_amended_trunk_tail :
    (∀ (now : Time) (branchesAll : List String) (pd : PackageDiff) (g : GState)
      (pkg : String) (pulls : Pulls) (tags : List (Tag × TagInfo)) (lt : Tag),
      (tagsFold branchesAll pd pkg g pulls tags).1.lastTag = some lt →
      lt.is_regular = true →
      processPackage now branchesAll pd g pkg pulls tags =
        some ((tagsFold branchesAll pd pkg g pulls tags).1,
          (tagsFold branchesAll pd pkg g pulls tags).2.pulls)) ∧
    (∀ (now : Time) (pkg : String) (cutoff : Time) (evs : Events) (r : BucketMap),
      bucketTickets (trunkLoop now pkg cutoff evs r) "~main" =
        bucketTickets r "~main" ++
          (evs.filter (fun e => decide (cutoff < e.1))).map (mkChange pkg)) ∧
    (∀ name : String, strLtB (Tag.ofName name).rel_name "~main" = true) := by
  refine ⟨?_, trunkLoop_tickets, relName_lt_tilde⟩
  intro now branchesAll pd g pkg pulls tags lt h1 h2
  unfold processPackage
  rw [h1]
  simp only [h2, if_true]

/-- Claim C4 (witness): the amended statement at concrete data: the
trunk-tail skip for the NUMBERED last tag `9.1` of `c4Repos`, a concrete
trunk-loop run, and the sort position of `v9_1`. -/
theorem C4_witness :
    processPackage 0 [] [] ⟨[], none, none⟩ "p"
        [("main", [(50, "DM-1 a"), (300, "DM-3 b")])]
        [(Tag.ofName "9.1", ⟨100, 100, "", false⟩)] =
      some ((tagsFold [] [] "p" ⟨[], none, none⟩
          [("main", [(50, "DM-1 a"), (300, "DM-3 b")])]
          [(Tag.ofName "9.1", ⟨100, 100, "", false⟩)]).1,
        (tagsFold [] [] "p" ⟨[], none, none⟩
          [("main", [(50, "DM-1 a"), (300, "DM-3 b")])]
          [(Tag.ofName "9.1", ⟨100, 100, "", false⟩)]).2.pulls) ∧
    bucketTickets (trunkLoop 7 "p" 100 [(50, "DM-1 a"), (300, "DM-3 b")] []) "~main" =
      bucketTickets ([] : BucketMap) "~main" ++
        (([(50, "DM-1 a"), (300, "DM-3 b")] : Events).filter
          (fun e => decide ((100 : Time) < e.1))).map (mkChange "p") ∧
    strLtB (Tag.ofName "9.1").rel_name "~main" = true :=
  ⟨C4_amended_trunk_tail.1 0 [] [] ⟨[], none, none⟩ "p"
      [("main", [(50, "DM-1 a"), (300, "DM-3 b")])]
      [(Tag.ofName "9.1", ⟨100, 100, "", false⟩)] (Tag.ofName "9.1")
      (by decide) (by decide),
    C4_amended_trunk_tail.2.1 7 "p" 100 [(50, "DM-1 a"), (300, "DM-3 b")] [],
    C4_amended_trunk_tail.2.2 "9.1"⟩

/-! ### Generation-time independence (for claim C7)

The only place the wall-clock timestamp `datetime.datetime.now()` enters
the result is the `date` field of the synthetic `~main` bucket.
`eraseTrunkDate` blanks exactly that field. -/

/-- Blank the `date` of the `~main` bucket (and nothing else). -/
def eraseTrunkDate : BucketMap → BucketMap
  | [] => []
  | p :: rest =>
    (if p.1 = "~main" then (p.1, { p.2 with date := none }) else p) ::
      eraseTrunkDate rest

lemma containsKey_erase (r : BucketMap) (k : String) :
    containsKey (eraseTrunkDate r) k = containsKey r k := by
  induction r with
  | nil => rfl
  | cons p rest ih =>
    by_cases hp : p.1 = "~main" <;> simp [eraseTrunkDate, containsKey, hp, ih]

lemma erase_modify_append (r : BucketMap) (k : String) (cs : List Change) :
    eraseTrunkDate (modifyBucket r k (fun b => { b with tickets := b.tickets ++ cs })) =
      modifyBucket (eraseTrunkDate r) k (fun b => { b with tickets := b.tickets ++ cs }) := by
  induction r with
  | nil => rfl
  | cons p rest ih =>
    simp only [modifyBucket, eraseTrunkDate, ih]
    by_cases h1 : p.1 = k
    · by_cases h2 : p.1 = "~main"
      · have hk : k = "~main" := by rw [← h1]; exact h2
        simp [h1, h2, hk]
      · have hk : ¬ k = "~main" := by rw [← h1]; exact h2
        simp [h1, h2, hk]
    · by_cases h2 : p.1 = "~main"
      · have hk : ¬ "~main" = k := fun hh => h1 (h2.trans hh)
        have hk2 : ¬ k = "~main" := fun hh => hk hh.symm
        simp [h1, h2, hk, hk2]
      · simp [h1, h2]

lemma erase_modify_date_ne (r : BucketMap) (k : String) (d : Option Time)
    (hk : k ≠ "~main") :
    eraseTrunkDate (modifyBucket r k (fun b => { b with date := d })) =
      modifyBucket (eraseTrunkDate r) k (fun b => { b with date := d }) := by
  induction r with
  | nil => rfl
  | cons p rest ih =>
    simp only [modifyBucket, eraseTrunkDate, ih]
    by_cases h1 : p.1 = k
    · have h2 : ¬ p.1 = "~main" := by rw [h1]; exact hk
      simp [h1, h2, hk]
    · by_cases h2 : p.1 = "~main"
      · have hk2 : ¬ "~main" = k := fun hh => hk hh.symm
        simp [h1, h2, hk, hk2]
      · simp [h1, h2]

lemma erase_modify_date_tilde (r : BucketMap) (d : Option Time) :
    eraseTrunkDate (modifyBucket r "~main" (fun b => { b with date := d })) =
      eraseTrunkDate r := by
  induction r with
  | nil => rfl
  | cons p rest ih =>
    simp only [modifyBucket, eraseTrunkDate, ih]
    by_cases h1 : p.1 = "~main" <;> simp [h1]

lemma erase_setBucket (r : BucketMap) (k : String) (b : Bucket) :
    eraseTrunkDate (setBucket r k b) =
      setBucket (eraseTrunkDate r) k
        (if k = "~main" then { b with date := none } else b) := by
  induction r with
  | nil =>
    by_cases hk : k = "~main" <;> simp [setBucket, eraseTrunkDate, hk]
  | cons p rest ih =>
    simp only [setBucket]
    by_cases h1 : k = p.1
    · by_cases h2 : p.1 = "~main"
      · have hk : k = "~main" := by rw [h1, h2]
        simp [setBucket, eraseTrunkDate, h1, h2, hk]
      · have hk : ¬ k = "~main" := by rw [h1]; exact h2
        simp [setBucket, eraseTrunkDate, h1, h2, hk]
    · by_cases h2 : strLtB k p.1
      · by_cases h3 : p.1 = "~main"
        · have hk : ¬ k = "~main" := by rw [← h3]; exact h1
          have h2a : strLtB k "~main" = true := by rw [← h3]; exact h2
          simp [setBucket, eraseTrunkDate, h1, h2, h3, hk, h2a]
        · by_cases hk : k = "~main"
          · have h1a : ¬ "~main" = p.1 := by rw [← hk]; exact h1
            have h2a : strLtB "~main" p.1 = true := by rw [← hk]; exact h2
            simp [setBucket, eraseTrunkDate, h1, h2, h3, hk, h1a, h2a]
          · simp [setBucket, eraseTrunkDate, h1, h2, h3, hk]
      · by_cases h3 : p.1 = "~main"
        · have hk : ¬ k = "~main" := by rw [← h3]; exact h1
          have h2a : ¬ strLtB k "~main" = true := by rw [← h3]; exact h2
          simp [setBucket, eraseTrunkDate, h1, h2, h3, hk, h2a, ih]
        · simp [setBucket, eraseTrunkDate, h1, h2, h3, ih]

/-- The erase-projection of the create step depends only on the
erase-projection of the input. -/
lemma erase_create {r1 r2 : BucketMap} (k : String)
    (h : eraseTrunkDate r1 = eraseTrunkDate r2) :
    eraseTrunkDate (if containsKey r1 k then r1 else setBucket r1 k ⟨none, []⟩) =
      eraseTrunkDate (if containsKey r2 k then r2 else setBucket r2 k ⟨none, []⟩) := by
  have hc : containsKey r1 k = containsKey r2 k := by
    rw [← containsKey_erase r1, ← containsKey_erase r2, h]
  by_cases h1 : containsKey r1 k = true
  · rw [if_pos h1, if_pos (hc ▸ h1), h]
  · rw [Bool.not_eq_true] at h1
    rw [if_neg (by rw [h1]; exact fun hh => nomatch hh),
      if_neg (by rw [← hc, h1]; exact fun hh => nomatch hh)]
    rw [erase_setBucket, erase_setBucket, h]

lemma erase_modify_date_cong {r1 r2 : BucketMap} (k : String) (d : Option Time)
    (h : eraseTrunkDate r1 = eraseTrunkDate r2) :
    eraseTrunkDate (modifyBucket r1 k (fun b => { b with date := d })) =
      eraseTrunkDate (modifyBucket r2 k (fun b => { b with date := d })) := by
  by_cases hk : k = "~main"
  · subst hk
    rw [erase_modify_date_tilde, erase_modify_date_tilde, h]
  · rw [erase_modify_date_ne _ _ _ hk, erase_modify_date_ne _ _ _ hk, h]

lemma erase_modify_append_cong {r1 r2 : BucketMap} (k : String) (cs : List Change)
    (h : eraseTrunkDate r1 = eraseTrunkDate r2) :
    eraseTrunkDate (modifyBucket r1 k (fun b => { b with tickets := b.tickets ++ cs })) =
      eraseTrunkDate (modifyBucket r2 k (fun b => { b with tickets := b.tickets ++ cs })) := by
  rw [erase_modify_append, erase_modify_append, h]

/-- The trunk-tail loop's result, up to the `~main` date, does not depend
on the generation timestamp. -/
lemma trunkLoop_erase (pkg : String) (cutoff : Time) (now1 now2 : Time)
    (evs : Events) :
    ∀ {r1 r2 : BucketMap}, eraseTrunkDate r1 = eraseTrunkDate r2 →
      eraseTrunkDate (trunkLoop now1 pkg cutoff evs r1) =
        eraseTrunkDate (trunkLoop now2 pkg cutoff evs r2) := by
  induction evs with
  | nil => intro r1 r2 h; exact h
  | cons e rest ih =>
    intro r1 r2 h
    have hc : containsKey r1 "~main" = containsKey r2 "~main" := by
      rw [← containsKey_erase r1, ← containsKey_erase r2, h]
    rw [show trunkLoop now1 pkg cutoff (e :: rest) r1 =
      trunkLoop now1 pkg cutoff rest
        (if cutoff < e.1 then
          modifyBucket
            (if containsKey r1 "~main" then r1
             else setBucket r1 "~main" ⟨some now1, []⟩) "~main"
            (fun b => { b with tickets := b.tickets ++ [mkChange pkg e] })
         else
          (if containsKey r1 "~main" then r1
           else setBucket r1 "~main" ⟨some now1, []⟩)) from rfl]
    rw [show trunkLoop now2 pkg cutoff (e :: rest) r2 =
      trunkLoop now2 pkg cutoff rest
        (if cutoff < e.1 then
          modifyBucket
            (if containsKey r2 "~main" then r2
             else setBucket r2 "~main" ⟨some now2, []⟩) "~main"
            (fun b => { b with tickets := b.tickets ++ [mkChange pkg e] })
         else
          (if containsKey r2 "~main" then r2
           else setBucket r2 "~main" ⟨some now2, []⟩)) from rfl]
    apply ih
    have hcr : eraseTrunkDate
        (if containsKey r1 "~main" then r1 else setBucket r1 "~main" ⟨some now1, []⟩) =
        eraseTrunkDate
        (if containsKey r2 "~main" then r2 else setBucket r2 "~main" ⟨some now2, []⟩) := by
      by_cases h1 : containsKey r1 "~main" = true
      · rw [if_pos h1, if_pos (hc ▸ h1), h]
      · rw [Bool.not_eq_true] at h1
        rw [if_neg (by rw [h1]; exact fun hh => nomatch hh),
          if_neg (by rw [← hc, h1]; exact fun hh => nomatch hh)]
        rw [erase_setBucket, erase_setBucket, h]
        simp
    by_cases he : cutoff < e.1
    · rw [if_pos he, if_pos he]
      exact erase_modify_append_cong _ _ hcr
    · rw [if_neg he, if_neg he]
      exact hcr

/-- One tag step preserves the erase-projection relation between two
global states (the step itself never reads the generation time). -/
lemma processTag_erase (branchesAll : List String) (pd : PackageDiff)
    (pkg : String) (tag : Tag) (info : TagInfo) (g1 g2 : GState) (p : PState)
    (hres : eraseTrunkDate g1.result = eraseTrunkDate g2.result)
    (hdate : g1.lastTagDate = g2.lastTagDate) :
    eraseTrunkDate (processTag branchesAll pd pkg (g1, p) tag info).1.result =
      eraseTrunkDate (processTag branchesAll pd pkg (g2, p) tag info).1.result ∧
    (processTag branchesAll pd pkg (g1, p) tag info).1.lastTagDate =
      (processTag branchesAll pd pkg (g2, p) tag info).1.lastTagDate ∧
    (processTag branchesAll pd pkg (g1, p) tag info).1.lastTag =
      (processTag branchesAll pd pkg (g2, p) tag info).1.lastTag ∧
    (processTag branchesAll pd pkg (g1, p) tag info).2 =
      (processTag branchesAll pd pkg (g2, p) tag info).2 := by
  have hcr := erase_create tag.rel_name hres
  cases hpl : plookup p.pulls p.lastBranch with
  | none =>
    simp only [processTag, hpl]
    refine ⟨erase_modify_date_cong _ _ hcr, by rw [hdate], ?_, ?_⟩ <;>
      first | rfl | trivial
  | some evs =>
    simp only [processTag, hpl]
    refine ⟨erase_modify_append_cong _ _ (erase_modify_date_cong _ _ hcr),
      by rw [hdate], ?_, ?_⟩ <;> first | rfl | trivial

/-- The whole tag loop preserves the erase-projection relation. -/
lemma foldTags_erase (branchesAll : List String) (pd : PackageDiff)
    (pkg : String) (tags : List (Tag × TagInfo)) :
    ∀ (g1 g2 : GState) (p : PState),
      eraseTrunkDate g1.result = eraseTrunkDate g2.result →
      g1.lastTagDate = g2.lastTagDate → g1.lastTag = g2.lastTag →
      eraseTrunkDate ((tags.foldl
          (fun st ti => processTag branchesAll pd pkg st ti.1 ti.2) (g1, p)).1.result) =
        eraseTrunkDate ((tags.foldl
          (fun st ti => processTag branchesAll pd pkg st ti.1 ti.2) (g2, p)).1.result) ∧
      (tags.foldl (fun st ti => processTag branchesAll pd pkg st ti.1 ti.2)
        (g1, p)).1.lastTagDate =
        (tags.foldl (fun st ti => processTag branchesAll pd pkg st ti.1 ti.2)
          (g2, p)).1.lastTagDate ∧
      (tags.foldl (fun st ti => processTag branchesAll pd pkg st ti.1 ti.2)
        (g1, p)).1.lastTag =
        (tags.foldl (fun st ti => processTag branchesAll pd pkg st ti.1 ti.2)
          (g2, p)).1.lastTag ∧
      (tags.foldl (fun st ti => processTag branchesAll pd pkg st ti.1 ti.2)
        (g1, p)).2 =
        (tags.foldl (fun st ti => processTag branchesAll pd pkg st ti.1 ti.2)
          (g2, p)).2 := by
  induction tags with
  | nil => intro g1 g2 p h1 h2 h3; exact ⟨h1, h2, h3, rfl⟩
  | cons t rest ih =>
    intro g1 g2 p h1 h2 h3
    obtain ⟨s1, s2, s3, s4⟩ := processTag_erase branchesAll pd pkg t.1 t.2 g1 g2 p h1 h2
    simp only [List.foldl_cons]
    rw [show processTag branchesAll pd pkg (g1, p) t.1 t.2 =
      ((processTag branchesAll pd pkg (g1, p) t.1 t.2).1,
       (processTag branchesAll pd pkg (g1, p) t.1 t.2).2) from rfl]
    rw [show processTag branchesAll pd pkg (g2, p) t.1 t.2 =
      ((processTag branchesAll pd pkg (g2, p) t.1 t.2).1,
       (processTag branchesAll pd pkg (g2, p) t.1 t.2).2) from rfl]
    rw [← s4]
    exact ih _ _ _ s1 s2 s3

/-- One package body, run at two generation times and over two
erase-related states, yields `none` together or `some` results related by
the erase-projection (with identical pulls). -/
lemma processPackage_erase (now1 now2 : Time) (branchesAll : List String)
    (pd : PackageDiff) (pkg : String) (pulls : Pulls)
    (tags : List (Tag × TagInfo)) (g1 g2 : GState)
    (hres : eraseTrunkDate g1.result = eraseTrunkDate g2.result)
    (hdate : g1.lastTagDate = g2.lastTagDate)
    (hlast : g1.lastTag = g2.lastTag) :
    (processPackage now1 branchesAll pd g1 pkg pulls tags = none ∧
      processPackage now2 branchesAll pd g2 pkg pulls tags = none) ∨
    (∃ a b, processPackage now1 branchesAll pd g1 pkg pulls tags = some a ∧
      processPackage now2 branchesAll pd g2 pkg pulls tags = some b ∧
      eraseTrunkDate a.1.result = eraseTrunkDate b.1.result ∧
      a.1.lastTagDate = b.1.lastTagDate ∧ a.1.lastTag = b.1.lastTag ∧
      a.2 = b.2) := by
  obtain ⟨s1, s2, s3, s4⟩ := foldTags_erase branchesAll pd pkg tags g1 g2
    ⟨pulls, "main"⟩ hres hdate hlast
  have t1 : eraseTrunkDate (tagsFold branchesAll pd pkg g1 pulls tags).1.result =
      eraseTrunkDate (tagsFold branchesAll pd pkg g2 pulls tags).1.result := s1
  have t2 : (tagsFold branchesAll pd pkg g1 pulls tags).1.lastTagDate =
      (tagsFold branchesAll pd pkg g2 pulls tags).1.lastTagDate := s2
  have t3 : (tagsFold branchesAll pd pkg g1 pulls tags).1.lastTag =
      (tagsFold branchesAll pd pkg g2 pulls tags).1.lastTag := s3
  have t4 : (tagsFold branchesAll pd pkg g1 pulls tags).2 =
      (tagsFold branchesAll pd pkg g2 pulls tags).2 := s4
  cases hlt : (tagsFold branchesAll pd pkg g1 pulls tags).1.lastTag with
  | none =>
    have hlt2 : (tagsFold branchesAll pd pkg g2 pulls tags).1.lastTag = none := by
      rw [← t3]; exact hlt
    refine Or.inl ⟨?_, ?_⟩
    · unfold processPackage
      rw [hlt]
    · unfold processPackage
      rw [hlt2]
  | some lt =>
    have hlt2 : (tagsFold branchesAll pd pkg g2 pulls tags).1.lastTag = some lt := by
      rw [← t3]; exact hlt
    by_cases hreg : lt.is_regular = true
    · refine Or.inr ⟨((tagsFold branchesAll pd pkg g1 pulls tags).1,
          (tagsFold branchesAll pd pkg g1 pulls tags).2.pulls),
        ((tagsFold branchesAll pd pkg g2 pulls tags).1,
          (tagsFold branchesAll pd pkg g2 pulls tags).2.pulls),
        ?_, ?_, t1, t2, t3, congrArg PState.pulls t4⟩
      · unfold processPackage
        rw [hlt]
        simp only [hreg, if_true]
      · unfold processPackage
        rw [hlt2]
        simp only [hreg, if_true]
    · rw [Bool.not_eq_true] at hreg
      cases hmain : plookup (tagsFold branchesAll pd pkg g1 pulls tags).2.pulls "main" with
      | none =>
        have hmain2 : plookup (tagsFold branchesAll pd pkg g2 pulls tags).2.pulls "main" =
            none := by rw [← t4]; exact hmain
        refine Or.inr ⟨((tagsFold branchesAll pd pkg g1 pulls tags).1,
            (tagsFold branchesAll pd pkg g1 pulls tags).2.pulls),
          ((tagsFold branchesAll pd pkg g2 pulls tags).1,
            (tagsFold branchesAll pd pkg g2 pulls tags).2.pulls),
          ?_, ?_, t1, t2, t3, congrArg PState.pulls t4⟩
        · unfold processPackage
          rw [hlt]
          simp only [hreg, Bool.false_eq_true, if_false, hmain]
        · unfold processPackage
          rw [hlt2]
          simp only [hreg, Bool.false_eq_true, if_false, hmain2]
      | some evs =>
        have hmain2 : plookup (tagsFold branchesAll pd pkg g2 pulls tags).2.pulls "main" =
            some evs := by rw [← t4]; exact hmain
        cases evs with
        | nil =>
          refine Or.inr ⟨((tagsFold branchesAll pd pkg g1 pulls tags).1,
              (tagsFold branchesAll pd pkg g1 pulls tags).2.pulls),
            ((tagsFold branchesAll pd pkg g2 pulls tags).1,
              (tagsFold branchesAll pd pkg g2 pulls tags).2.pulls),
            ?_, ?_, t1, t2, t3, congrArg PState.pulls t4⟩
          · unfold processPackage
            rw [hlt]
            simp only [hreg, Bool.false_eq_true, if_false, hmain]
          · unfold processPackage
            rw [hlt2]
            simp only [hreg, Bool.false_eq_true, if_false, hmain2]
        | cons e rest =>
          cases hd : (tagsFold branchesAll pd pkg g1 pulls tags).1.lastTagDate with
          | none =>
            have hd2 : (tagsFold branchesAll pd pkg g2 pulls tags).1.lastTagDate =
                none := by rw [← t2]; exact hd
            refine Or.inl ⟨?_, ?_⟩
            · unfold processPackage
              rw [hlt]
              simp only [hreg, Bool.false_eq_true, if_false, hmain, hd]
            · unfold processPackage
              rw [hlt2]
              simp only [hreg, Bool.false_eq_true, if_false, hmain2, hd2]
          | some d =>
            have hd2 : (tagsFold branchesAll pd pkg g2 pulls tags).1.lastTagDate =
                some d := by rw [← t2]; exact hd
            refine Or.inr ⟨({ (tagsFold branchesAll pd pkg g1 pulls tags).1 with
                result := trunkLoop now1 pkg d (e :: rest)
                  (tagsFold branchesAll pd pkg g1 pulls tags).1.result },
              (tagsFold branchesAll pd pkg g1 pulls tags).2.pulls),
              ({ (tagsFold branchesAll pd pkg g2 pulls tags).1 with
                result := trunkLoop now2 pkg d (e :: rest)
                  (tagsFold branchesAll pd pkg g2 pulls tags).1.result },
              (tagsFold branchesAll pd pkg g2 pulls tags).2.pulls),
              ?_, ?_,
              trunkLoop_erase pkg d now1 now2 (e :: rest) t1,
              t2, t3, congrArg PState.pulls t4⟩
            · unfold processPackage
              rw [hlt]
              simp only [hreg, Bool.false_eq_true, if_false, hmain, hd]
            · unfold processPackage
              rw [hlt2]
              simp only [hreg, Bool.false_eq_true, if_false, hmain2, hd2]

/-- The package loop, run at two generation times, yields results that
agree after blanking the `~main` date (and identical final pulls). -/
lemma gmtGo_erase (now1 now2 : Time) (branchesAll : List String)
    (pd : PackageDiff) (tags : List (String × List (Tag × TagInfo))) :
    ∀ (pm : List (String × Pulls)) (g1 g2 : GState),
      eraseTrunkDate g1.result = eraseTrunkDate g2.result →
      g1.lastTagDate = g2.lastTagDate → g1.lastTag = g2.lastTag →
      (gmtGo now1 branchesAll pd tags pm g1).map
          (fun rp => (eraseTrunkDate rp.1, rp.2)) =
        (gmtGo now2 branchesAll pd tags pm g2).map
          (fun rp => (eraseTrunkDate rp.1, rp.2)) := by
  induction tags with
  | nil =>
    intro pm g1 g2 h1 h2 h3
    simp only [gmtGo, Option.map]
    rw [h1]
  | cons pt rest ih =>
    intro pm g1 g2 h1 h2 h3
    cases hpm : pmLookup pm pt.1 with
    | none => simp only [gmtGo, hpm]
    | some pkgPulls =>
      rcases processPackage_erase now1 now2 branchesAll pd pt.1 pkgPulls pt.2
          g1 g2 h1 h2 h3 with
        ⟨e1, e2⟩ | ⟨⟨a1, a2⟩, ⟨b1, b2⟩, e1, e2, r1, r2, r3, r4⟩
      · simp only [gmtGo, hpm, e1, e2]
      · simp only [gmtGo, hpm, e1, e2]
        have r4' : a2 = b2 := r4
        rw [← r4']
        exact ih (pmSet pm pt.1 a2) a1 b1 r1 r2 r3

/-- Claim C7 (counterexample): the same frozen input run at two different
generation times yields different results: the `~main` bucket's `date`
field is `datetime.datetime.now().isoformat()`. -/
theorem C7_counterexample :
    get_merged_tickets 1 c7Repos [] ≠ get_merged_tickets 2 c7Repos [] := by
  decide

/-- Claim C7 (amended): the attribution computation is deterministic in
its frozen inputs except for the generation timestamp recorded as the
synthetic trunk-tail bucket's `date`: for any two generation times the
two runs either both fail, or produce identical final pulls and bucket
maps that agree exactly once the `~main` date is blanked (same keys, same
ordering, same dates for every real release, same ticket lists
everywhere). -/
theorem C7_amended_now_independence (now1 now2 : Time) (repos : Repos)
    (pd : PackageDiff) :
    (get_merged_tickets now1 repos pd).map
        (fun rp => (eraseTrunkDate rp.1, rp.2)) =
      (get_merged_tickets now2 repos pd).map
        (fun rp => (eraseTrunkDate rp.1, rp.2)) := by
  unfold get_merged_tickets
  exact gmtGo_erase now1 now2 _ pd repos.tags repos.pulls _ _ rfl rfl rfl

/-! ### Frame effect on the caller-supplied pulls map (claim C9) -/

lemma mem_of_mem_dropWhile {p : Time × String → Bool} {l : Events}
    {x : Time × String} (h : x ∈ l.dropWhile p) : x ∈ l := by
  induction l with
  | nil => simp at h
  | cons e rest ih =>
    rw [List.dropWhile_cons] at h
    by_cases hp : p e = true
    · rw [if_pos hp] at h
      exact List.mem_cons_of_mem _ (ih h)
    · rw [if_neg hp] at h
      exact h

lemma pmLookup_pmSet_self {m : List (String × Pulls)} {pkg : String} {pl : Pulls}
    (h : pmLookup m pkg = some pl) (v : Pulls) :
    pmLookup (pmSet m pkg v) pkg = some v := by
  induction m with
  | nil => simp [pmLookup] at h
  | cons q rest ih =>
    by_cases hq : q.1 = pkg
    · simp [pmSet, pmLookup, hq]
    · simp only [pmLookup, hq, if_false] at h
      simp [pmSet, pmLookup, hq, ih h]

/-- Once the sought event is gone from the `main` partition, one tag step
keeps it gone (events are only ever deleted, never re-added). -/
lemma processTag_main_absent (branchesAll : List String) (pd : PackageDiff)
    (pkg : String) (tag : Tag) (info : TagInfo) (g : GState) (p : PState)
    (x : Time × String)
    (h : ∃ evs', plookup p.pulls "main" = some evs' ∧ x ∉ evs') :
    ∃ evs', plookup (processTag branchesAll pd pkg (g, p) tag info).2.pulls "main" =
      some evs' ∧ x ∉ evs' := by
  obtain ⟨evs', hl, hnx⟩ := h
  cases hpl : plookup p.pulls p.lastBranch with
  | none =>
    simp only [processTag, hpl]
    exact ⟨evs', hl, hnx⟩
  | some evs =>
    simp only [processTag, hpl]
    by_cases hb : p.lastBranch = "main"
    · rw [hb] at hpl
      rw [hpl] at hl
      have hevs : evs' = evs := by injection hl with h2; exact h2.symm
      subst hevs
      rw [hb]
      refine ⟨(consume pkg info.tag_date (suppressed pd tag pkg) evs').1,
        plookup_pset_self hpl _, ?_⟩
      rw [consume_fst]
      intro hmem
      exact hnx (mem_of_mem_dropWhile hmem)
    · refine ⟨evs', ?_, hnx⟩
      rw [plookup_pset_ne (fun hh => hb hh.symm)]
      exact hl

/-- The whole tag loop keeps the sought event absent from `main`. -/
lemma foldTags_main_absent (branchesAll : List String) (pd : PackageDiff)
    (pkg : String) (tags : List (Tag × TagInfo)) :
    ∀ (g : GState) (p : PState) (x : Time × String),
      (∃ evs', plookup p.pulls "main" = some evs' ∧ x ∉ evs') →
      ∃ evs', plookup ((tags.foldl
          (fun st ti => processTag branchesAll pd pkg st ti.1 ti.2) (g, p)).2.pulls)
          "main" = some evs' ∧ x ∉ evs' := by
  induction tags with
  | nil => intro g p x h; exact h
  | cons t rest ih =>
    intro g p x h
    simp only [List.foldl_cons]
    rw [show processTag branchesAll pd pkg (g, p) t.1 t.2 =
      ((processTag branchesAll pd pkg (g, p) t.1 t.2).1,
       (processTag branchesAll pd pkg (g, p) t.1 t.2).2) from rfl]
    exact ih _ _ x (processTag_main_absent branchesAll pd pkg t.1 t.2 g p x h)

/-- Any successful package run returns exactly the tag loop's mutated
pulls. -/
lemma processPackage_pulls {now : Time} {branchesAll : List String}
    {pd : PackageDiff} {g : GState} {pkg : String} {pl : Pulls}
    {tags : List (Tag × TagInfo)} {gp : GState × Pulls}
    (h : processPackage now branchesAll pd g pkg pl tags = some gp) :
    gp.2 = (tagsFold branchesAll pd pkg g pl tags).2.pulls := by
  unfold processPackage at h
  split at h
  · exact absurd h (by simp)
  · split at h
    · injection h with h2
      rw [← h2]
    · split at h
      · injection h with h2
        rw [← h2]
      · split at h
        · injection h with h2
          rw [← h2]
        · split at h
          · exact absurd h (by simp)
          · injection h with h2
            rw [← h2]

/-- Claim C9: `get_merged_tickets` mutates its `repos['pulls']` input: any
merge event consumed at the package's first tag (timestamp at or before
that tag's `tag_date`) is deleted from the package's `main` partition of
the returned pulls mapping, which therefore differs from the input
mapping.  (Stated for a single-package tag map; the fold only ever deletes
events.) -/
theorem C9_mutates_pulls (now : Time) (repos : Repos) (pd : PackageDiff)
    (pkg : String) (t0 : Tag) (i0 : TagInfo) (restTags : List (Tag × TagInfo))
    (pl : Pulls) (evs : Events) (x : Time × String)
    (out : BucketMap × List (String × Pulls))
    (htags : repos.tags = [(pkg, (t0, i0) :: restTags)])
    (hpl : pmLookup repos.pulls pkg = some pl)
    (hev : plookup pl "main" = some evs)
    (hmem : x ∈ evs)
    (hle : x.1 ≤ i0.tag_date)
    (hsorted : List.Pairwise (fun a b => a.1 < b.1) evs)
    (hout : get_merged_tickets now repos pd = some out) :
    (∃ pl' evs', pmLookup out.2 pkg = some pl' ∧
      plookup pl' "main" = some evs' ∧ x ∉ evs') ∧
    out.2 ≠ repos.pulls := by
  unfold get_merged_tickets at hout
  rw [htags] at hout
  simp only [gmtGo, hpl] at hout
  cases hp : processPackage now (collectBranches repos.branches) pd
      ⟨[], none, none⟩ pkg pl ((t0, i0) :: restTags) with
  | none => rw [hp] at hout; exact absurd hout (by simp)
  | some gp =>
    rw [hp] at hout
    simp only [gmtGo] at hout
    rw [show gp = (gp.1, gp.2) from rfl] at hout
    have hout2 : out = (gp.1.result, pmSet repos.pulls pkg gp.2) := by
      injection hout with h2
      exact h2.symm
    -- the event is gone after the first tag, and stays gone
    have h0 : ∃ evs', plookup (processTag (collectBranches repos.branches) pd pkg
        (⟨[], none, none⟩, ⟨pl, "main"⟩) t0 i0).2.pulls "main" = some evs' ∧
        x ∉ evs' := by
      simp only [processTag, hev]
      refine ⟨(consume pkg i0.tag_date (suppressed pd t0 pkg) evs).1,
        plookup_pset_self hev _, ?_⟩
      rw [consume_fst]
      intro hmemdrop
      exact absurd hle (not_le.mpr (mem_dropWhile_gt hsorted hmemdrop))
    have hQ : ∃ evs', plookup (tagsFold (collectBranches repos.branches) pd pkg
        ⟨[], none, none⟩ pl ((t0, i0) :: restTags)).2.pulls "main" = some evs' ∧
        x ∉ evs' := by
      unfold tagsFold
      rw [List.foldl_cons]
      rw [show processTag (collectBranches repos.branches) pd pkg
        (⟨[], none, none⟩, ⟨pl, "main"⟩) t0 i0 =
        ((processTag (collectBranches repos.branches) pd pkg
          (⟨[], none, none⟩, ⟨pl, "main"⟩) t0 i0).1,
         (processTag (collectBranches repos.branches) pd pkg
          (⟨[], none, none⟩, ⟨pl, "main"⟩) t0 i0).2) from rfl]
      exact foldTags_main_absent _ pd pkg restTags _ _ x h0
    rw [← processPackage_pulls hp] at hQ
    obtain ⟨evs', hlk, hnx⟩ := hQ
    constructor
    · refine ⟨gp.2, evs', ?_, hlk, hnx⟩
      rw [hout2]
      exact pmLookup_pmSet_self hpl gp.2
    · intro hcontra
      have h3 : pmLookup out.2 pkg = some gp.2 := by
        rw [hout2]
        exact pmLookup_pmSet_self hpl gp.2
      rw [hcontra, hpl] at h3
      have h4 : pl = gp.2 := Option.some.inj h3
      rw [← h4] at hlk
      rw [hev] at hlk
      have h5 : evs = evs' := Option.some.inj hlk
      rw [← h5] at hnx
      exact hnx hmem

/-- Concrete input for the C9 witness. -/
def c9Repos : Repos where
  pulls := [("p", [("main", [(50, "DM-1 a")])])]
  tags := [("p", [(Tag.ofName "9.1", ⟨100, 100, "", false⟩)])]
  branches := []

/-- Claim C9 (witness): on `c9Repos` the event at time 50 is consumed at
tag `9.1` and deleted from the returned pulls, which differ from the
input. -/
theorem C9_witness :
    (∃ pl' evs', pmLookup (([("v9_1", ⟨some 100, [⟨"p", "DM-1 a", 50, some 1⟩]⟩)],
        [("p", [("main", ([] : Events))])]) :
        BucketMap × List (String × Pulls)).2 "p" = some pl' ∧
      plookup pl' "main" = some evs' ∧ ((50 : Time), "DM-1 a") ∉ evs') ∧
    (([("v9_1", ⟨some 100, [⟨"p", "DM-1 a", 50, some 1⟩]⟩)],
        [("p", [("main", ([] : Events))])]) :
        BucketMap × List (String × Pulls)).2 ≠ c9Repos.pulls :=
  C9_mutates_pulls 0 c9Repos [] "p" (Tag.ofName "9.1") ⟨100, 100, "", false⟩ []
    [("main", [(50, "DM-1 a")])] [(50, "DM-1 a")] (50, "DM-1 a")
    ([("v9_1", ⟨some 100, [⟨"p", "DM-1 a", 50, some 1⟩]⟩)],
      [("p", [("main", [])])])
    (by decide) (by decide) (by decide) (by decide) (by decide)
    (by decide) (by decide)

end RubinChangelog
